import Mathlib

/-!
# Verification of the `intervallum` interval-set engine

A shallow embedding of `src/libinterval/interval_set.rs` over `Int` bounds.
The generic `Bound : Width + Num` type of the Rust source is modelled by `Int`
together with two explicit sentinel parameters `mn`/`mx` standing for
`Width::min_value()` / `Width::max_value()` (the saturating ±infinity sentinels
of the spec).  Cached sizes (`Bound::Output`, an unsigned type) are modelled by
`Nat`.  Debug-only assertions of the source are not part of the semantics; the
definitions follow the release-build computation.

The single-interval primitive (`Interval<Bound>`, file `interval.rs`) is not
part of the sources; its operations are modelled from the spec (§1 "OUT OF
SCOPE") and are marked `Modelled from the spec:` in their doc comments.
-/

namespace Intervallum

/-- Modelled from the spec: the primitive closed interval type `Interval<Bound>`
(out-of-scope collaborator, §1): a pair of a lower and an upper bound; the
interval is empty when `lb > ub`. -/
structure Iv where
  lb : Int
  ub : Int
deriving DecidableEq, Repr

namespace Iv

/-- Modelled from the spec: `Interval::new(lb, ub)`. -/
def new (lb ub : Int) : Iv := ⟨lb, ub⟩

/-- Modelled from the spec: the canonical empty interval (`lower > upper`). -/
def emptyIv : Iv := ⟨1, 0⟩

/-- Modelled from the spec: an interval is empty when its lower bound exceeds
its upper bound. -/
def isEmpty (i : Iv) : Bool := i.ub < i.lb

/-- Modelled from the spec: `Interval::whole()`, the full range between the
saturating sentinels. -/
def whole (mn mx : Int) : Iv := ⟨mn, mx⟩

/-- Modelled from the spec: `size()`, the exact cardinality of a closed
interval, widened (here to `Nat`) so the whole range does not overflow. -/
def size (i : Iv) : Nat := (i.ub + 1 - i.lb).toNat

/-- Modelled from the spec: `contains(v)`. -/
def containsB (i : Iv) (v : Int) : Bool := i.lb ≤ v ∧ v ≤ i.ub

/-- Modelled from the spec: `overlap(other)`: the two closed intervals share a
value. -/
def overlapB (i j : Iv) : Bool := max i.lb j.lb ≤ min i.ub j.ub

/-- Modelled from the spec: `intersection(other)` is exact. -/
def inter (i j : Iv) : Iv := ⟨max i.lb j.lb, min i.ub j.ub⟩

/-- Modelled from the spec: `hull(other)`, the convex union of two ranges
(an empty operand contributes nothing). -/
def hull (i j : Iv) : Iv :=
  if i.isEmpty then j
  else if j.isEmpty then i
  else ⟨min i.lb j.lb, max i.ub j.ub⟩

/-- Modelled from the spec: `is_subset(other)` on single intervals: an empty
interval is a subset of everything. -/
def isSubsetB (i j : Iv) : Bool :=
  if i.isEmpty then true
  else if j.isEmpty then false
  else j.lb ≤ i.lb ∧ i.ub ≤ j.ub

/-- Modelled from the spec: scalar multiplication of a single interval: the
convex hull of the achievable products, so multiplying by a negative constant
swaps the scaled endpoints. -/
def mulScalar (i : Iv) (c : Int) : Iv :=
  if i.isEmpty then emptyIv
  else ⟨min (i.lb * c) (i.ub * c), max (i.lb * c) (i.ub * c)⟩

/-- A non-empty closed interval. -/
def Nonempty (i : Iv) : Prop := i.lb ≤ i.ub

instance : DecidablePred Nonempty := fun i => inferInstanceAs (Decidable (i.lb ≤ i.ub))

/-- Point membership of an interval. -/
def Mem (v : Int) (i : Iv) : Prop := i.lb ≤ v ∧ v ≤ i.ub

instance (v : Int) (i : Iv) : Decidable (Mem v i) :=
  inferInstanceAs (Decidable (i.lb ≤ v ∧ v ≤ i.ub))

end Iv

/-- `joinable` (interval_set.rs): two ordered intervals can be merged when the
first saturates at the type maximum or touches/overlaps the second. -/
def joinable (mx : Int) (a b : Iv) : Bool :=
  if a.ub = mx then true else a.ub + 1 ≥ b.lb

/-- The negation of `joinable`: a genuine gap separates the two intervals. -/
def Sep (mx : Int) (a b : Iv) : Prop := a.ub ≠ mx ∧ a.ub + 1 < b.lb

instance (mx : Int) (a b : Iv) : Decidable (Sep mx a b) :=
  inferInstanceAs (Decidable (a.ub ≠ mx ∧ a.ub + 1 < b.lb))

/-- `IntervalSet<Bound>`: the ordered interval list plus the cached size. -/
structure IntervalSet where
  intervals : List Iv
  size : Nat
deriving DecidableEq, Repr

namespace IntervalSet

/-- `IntervalSet::empty()`. -/
def emptySet : IntervalSet := ⟨[], 0⟩

/-- `IntervalSet::from_interval`. -/
def fromInterval (i : Iv) : IntervalSet := ⟨[i], i.size⟩

/-- `IntervalSet::new(lb, ub)` (release semantics: the `lb ≤ ub` check is a
debug assertion). -/
def newSet (lb ub : Int) : IntervalSet := fromInterval (Iv.new lb ub)

/-- `IntervalSet::singleton(x)`. -/
def singletonSet (x : Int) : IntervalSet := newSet x x

/-- `IntervalSet::whole()`. -/
def wholeSet (mn mx : Int) : IntervalSet := fromInterval (Iv.whole mn mx)

/-- `push`: append at the back, incrementally maintaining the cached size
(the emptiness/orderedness requirements are debug assertions). -/
def push (s : IntervalSet) (x : Iv) : IntervalSet :=
  ⟨s.intervals ++ [x], s.size + x.size⟩

/-- `join_or_push`: merge with the last interval when joinable, else push. -/
def joinOrPush (mx : Int) (s : IntervalSet) (x : Iv) : IntervalSet :=
  match s.intervals.getLast? with
  | none => s.push x
  | some b =>
    if joinable mx b x then
      -- pop (size -= b.size) followed by push of the hull
      ⟨s.intervals.dropLast ++ [b.hull x], s.size - b.size + (b.hull x).size⟩
    else s.push x

/-- `extend_at_back`: fold `join_or_push` over an in-order iterable. -/
def extendAtBack (mx : Int) (s : IntervalSet) (l : List Iv) : IntervalSet :=
  l.foldl (joinOrPush mx) s

/-- A fold of raw `push` calls (the `for … res.push(…)` loops of the source). -/
def pushAll (s : IntervalSet) (l : List Iv) : IntervalSet :=
  l.foldl push s

/-- `span()`: convex hull of the whole set. -/
def span (s : IntervalSet) : Iv :=
  match s.intervals with
  | [] => Iv.emptyIv
  | first :: rest => ⟨first.lb, ((first :: rest).getLast (by simp)).ub⟩

/-- Total list indexing used to model `self.intervals[i]` (all modelled
accesses are in bounds; out-of-range reads return the empty interval). -/
def idxIv (l : List Iv) (i : Int) : Iv := l.getD i.toNat Iv.emptyIv

/-- `find_interval_between`: binary search inside the index window
`[left, right]`.  Indices are modelled as `Int` (the source uses `usize`;
the subtraction `mid - 1` never underflows under the documented
precondition). -/
def findBetween (l : List Iv) (v : Int) (left right : Int) : Int × Int :=
  if _h : left ≤ right then
    let mid := left + (right - left) / 2
    let m := idxIv l mid
    if v < m.lb then findBetween l v left (mid - 1)
    else if m.ub < v then findBetween l v (mid + 1) right
    else (mid, mid)
  else (right, left)
termination_by (right + 1 - left).toNat
decreasing_by
  · have h2 : (0:Int) ≤ (right - left) / 2 :=
      Int.ediv_nonneg (by omega) (by omega)
    omega
  · have h2 : (right - left) / 2 ≤ right - left :=
      Int.ediv_le_self _ (by omega)
    omega

/-- `find_interval(value)`: `None` outside the span, else the index pair. -/
def findInterval (s : IntervalSet) (v : Int) : Option (Int × Int) :=
  if (span s).containsB v then
    some (findBetween s.intervals v 0 ((s.intervals.length : Int) - 1))
  else none

/-- `contains(value)` for interval sets. -/
def containsSet (s : IntervalSet) (v : Int) : Bool :=
  match findInterval s v with
  | some (l, r) => l = r
  | none => false

/-- The union merge loop: `from_lower_iterator` followed by the `advance_lower`
/ `join_or_push` loop and the final `extend_at_back` of the remainders. -/
def unionLoop (mx : Int) : List Iv → List Iv → IntervalSet → IntervalSet
  | [], b, res => extendAtBack mx res b
  | i :: a, [], res => extendAtBack mx res (i :: a)
  | i :: a, j :: b, res =>
    if i.lb < j.lb then unionLoop mx a (j :: b) (joinOrPush mx res i)
    else unionLoop mx (i :: a) b (joinOrPush mx res j)
termination_by a b _ => a.length + b.length

/-- `union` on two interval sets. -/
def union (mx : Int) (s t : IntervalSet) : IntervalSet :=
  unionLoop mx s.intervals t.intervals emptySet

/-- The intersection loop: `advance_to_first_overlapping`, emit the exact
overlap, then `advance_lub` (advance the operand with the lower upper bound). -/
def interLoop : List Iv → List Iv → IntervalSet → IntervalSet
  | i :: a, j :: b, res =>
    if i.overlapB j then
      let res' := res.push (i.inter j)
      if i.ub < j.ub then interLoop a (j :: b) res'
      else interLoop (i :: a) b res'
    else
      if i.lb < j.lb then interLoop a (j :: b) res
      else interLoop (i :: a) b res
  | _, _, res => res
termination_by a b _ => a.length + b.length

/-- `intersection` on two interval sets. -/
def intersection (s t : IntervalSet) : IntervalSet :=
  interLoop s.intervals t.intervals emptySet

/-- `overlap` on two interval sets (`advance_to_first_overlapping` run to
completion without emitting). -/
def overlapSet : List Iv → List Iv → Bool
  | i :: a, j :: b =>
    if i.overlapB j then true
    else if i.lb < j.lb then overlapSet a (j :: b)
    else overlapSet (i :: a) b
  | _, _ => false
termination_by a b => a.length + b.length

/-- The consecutive gaps `previous.upper()+1 .. current.lower()-1` of
`complement`. -/
def midGaps : Iv → List Iv → List Iv
  | _, [] => []
  | prev, cur :: rest => ⟨prev.ub + 1, cur.lb - 1⟩ :: midGaps cur rest

/-- The tail of the complement list from a previous interval onwards:
the gaps after `prev` between consecutive intervals, closed by the final gap
up to `mx` (used to state lemmas about `complement`). -/
def compTail (mx : Int) : Iv → List Iv → List Iv
  | prev, [] => if prev.ub = mx then [] else [⟨prev.ub + 1, mx⟩]
  | prev, cur :: rest => ⟨prev.ub + 1, cur.lb - 1⟩ :: compTail mx cur rest

/-- `complement`: sentinel gap-filling between `mn` and `mx`. -/
def complement (mn mx : Int) (s : IntervalSet) : IntervalSet :=
  match s.intervals with
  | [] => emptySet.push (Iv.whole mn mx)
  | first :: rest =>
    -- push_left_complement
    let res := if first.lb = mn then emptySet else emptySet.push ⟨mn, first.lb - 1⟩
    let res := res.pushAll (midGaps first rest)
    let last := (first :: rest).getLast (by simp)
    -- push_right_complement
    if last.ub = mx then res else res.push ⟨last.ub + 1, mx⟩

/-- `difference`: `A ∩ complement(B)`. -/
def difference (mn mx : Int) (s t : IntervalSet) : IntervalSet :=
  intersection s (complement mn mx t)

/-- `symmetric_difference`: `(A ∪ B) − (A ∩ B)`. -/
def symmetricDifference (mn mx : Int) (s t : IntervalSet) : IntervalSet :=
  difference mn mx (union mx s t) (intersection s t)

/-- The containment walk of `is_subset`, re-seeding the binary search with the
previously found index. -/
def subsetWalk (t : IntervalSet) : List Iv → Int → Bool
  | [], _ => true
  | iv :: rest, left =>
    let p := findBetween t.intervals iv.lb left ((t.intervals.length : Int) - 1)
    if p.1 = p.2 && iv.isSubsetB (idxIv t.intervals p.1) then subsetWalk t rest p.1
    else false

/-- `is_subset` on interval sets. -/
def isSubset (s t : IntervalSet) : Bool :=
  if s.intervals.isEmpty then true
  else if t.size < s.size || !((span s).isSubsetB (span t)) then false
  else subsetWalk t s.intervals 0

/-- `shrink_left(lb)`. -/
def shrinkLeft (s : IntervalSet) (lb : Int) : IntervalSet :=
  match findInterval s lb with
  | some (left, _) =>
    let res :=
      if lb ≤ (idxIv s.intervals left).ub then
        emptySet.push ⟨lb, (idxIv s.intervals left).ub⟩
      else emptySet
    res.pushAll (s.intervals.drop (left.toNat + 1))
  | none =>
    if s.intervals.isEmpty then emptySet
    else if (span s).ub < lb then emptySet
    else s

/-- `shrink_right(ub)`. -/
def shrinkRight (s : IntervalSet) (ub : Int) : IntervalSet :=
  match findInterval s ub with
  | some (_, right) =>
    let res := emptySet.pushAll (s.intervals.take right.toNat)
    if (idxIv s.intervals right).lb ≤ ub then
      res.push ⟨(idxIv s.intervals right).lb, ub⟩
    else res
  | none =>
    if s.intervals.isEmpty then emptySet
    else if ub < (span s).lb then emptySet
    else s

/-- `stable_map`: map a size-preserving function over the intervals, keeping
the cached size. -/
def stableMap (s : IntervalSet) (f : Iv → Iv) : IntervalSet :=
  ⟨s.intervals.map f, s.size⟩

/-- `map`: rebuild by raw pushes of the mapped intervals. -/
def mapSet (s : IntervalSet) (f : Iv → Iv) : IntervalSet :=
  s.intervals.foldl (fun r i => r.push (f i)) emptySet

/-- `Mul<&Bound>::mul`: multiplication of a set by a scalar constant with its
zero/one special cases. -/
def mulScalar (s : IntervalSet) (c : Int) : IntervalSet :=
  if s.intervals.isEmpty then emptySet
  else if c = 0 then singletonSet 0
  else if c = 1 then s
  else s.mapSet (fun i => i.mulScalar c)

/-- The sort by lower bound used by `extend` / `to_interval_set`
(`sort_unstable_by_key(lower)`, modelled by insertion sort). -/
def sortIntervals (l : List Iv) : List Iv :=
  List.insertionSort (fun a b => a.lb ≤ b.lb) l

/-- `Extend::extend`: sort the incoming intervals, build a canonical set from
them at the back of an empty set, and union with the receiver. -/
def extendSet (mx : Int) (s : IntervalSet) (l : List Iv) : IntervalSet :=
  union mx s (extendAtBack mx emptySet (sortIntervals l))

/-- `to_interval_set` for a sequence of `(lower, upper)` pairs. -/
def toIntervalSet (mx : Int) (l : List (Int × Int)) : IntervalSet :=
  extendAtBack mx emptySet (sortIntervals (l.map fun p => Iv.new p.1 p.2))

/-- `Serialize::serialize`: the empty set serializes as an explicit none
marker, any other set as its ordered `(lower, upper)` pair sequence. -/
def serialize (s : IntervalSet) : Option (List (Int × Int)) :=
  if s.intervals.isEmpty then none
  else some (s.intervals.map fun i => (i.lb, i.ub))

/-- `Deserialize` (`visit_none` / `visit_seq`): an absent value decodes to the
empty set, a sequence is fed through `extend` on an empty set. -/
def deserialize (mx : Int) (o : Option (List (Int × Int))) : IntervalSet :=
  match o with
  | none => emptySet
  | some ps => extendSet mx emptySet (ps.map fun p => Iv.new p.1 p.2)

end IntervalSet

open IntervalSet

/-- The `Width` sentinels of the `i32` bound type
(`min_value = -(2^31 - 1)`, `max_value = 2^31 - 1`). -/
def mn32 : Int := -2147483647

/-- The `Width` maximum of the `i32` bound type. -/
def mx32 : Int := 2147483647

/-! ## The canonical-form invariant and point semantics -/

/-- All intervals of the list are non-empty and lie between the sentinels. -/
def GoodIvs (mn mx : Int) (l : List Iv) : Prop :=
  ∀ i ∈ l, i.Nonempty ∧ mn ≤ i.lb ∧ i.ub ≤ mx

/-- The canonical-list invariant: good intervals, consecutive ones separated
by a genuine gap. -/
def GoodList (mn mx : Int) (l : List Iv) : Prop :=
  GoodIvs mn mx l ∧ l.Chain' (Sep mx)

/-- Sum of the exact cardinalities of a list of intervals. -/
def sumSizes (l : List Iv) : Nat := (l.map Iv.size).sum

/-- The full canonical-form invariant of an `IntervalSet` (spec §3): no empty
interval, strict order with non-adjacency, bounds between the sentinels, and
the cached size equal to the sum of the interval cardinalities. -/
def Canonical (mn mx : Int) (s : IntervalSet) : Prop :=
  GoodList mn mx s.intervals ∧ s.size = sumSizes s.intervals

/-- Point membership in an interval list. -/
def MemList (v : Int) (l : List Iv) : Prop := ∃ i ∈ l, Iv.Mem v i

/-- Point membership in an interval set. -/
def MemSet (v : Int) (s : IntervalSet) : Prop := MemList v s.intervals

/-- Executable check of the gap-separation chain, used so that `Canonical` can
be evaluated by the kernel. -/
def chainSepB (mx : Int) : List Iv → Bool
  | [] => true
  | [_] => true
  | a :: b :: l => decide (Sep mx a b) && chainSepB mx (b :: l)

theorem chainSepB_iff {mx : Int} : ∀ (l : List Iv),
    chainSepB mx l = true ↔ l.Chain' (Sep mx) := by
  intro l
  induction l with
  | nil => simp [chainSepB]
  | cons a l ih =>
    cases l with
    | nil => simp [chainSepB]
    | cons b l' =>
      rw [List.chain'_cons]
      simp only [chainSepB, Bool.and_eq_true, decide_eq_true_eq]
      rw [ih]

instance (mx : Int) (l : List Iv) : Decidable (l.Chain' (Sep mx)) :=
  decidable_of_iff _ (chainSepB_iff l)

instance (mn mx : Int) (l : List Iv) : Decidable (GoodIvs mn mx l) :=
  inferInstanceAs (Decidable (∀ i ∈ l, i.Nonempty ∧ mn ≤ i.lb ∧ i.ub ≤ mx))

instance (mn mx : Int) (l : List Iv) : Decidable (GoodList mn mx l) :=
  inferInstanceAs (Decidable (GoodIvs mn mx l ∧ l.Chain' (Sep mx)))

instance (mn mx : Int) (s : IntervalSet) : Decidable (Canonical mn mx s) :=
  inferInstanceAs (Decidable (GoodList mn mx s.intervals ∧ s.size = sumSizes s.intervals))

instance (v : Int) (l : List Iv) : Decidable (MemList v l) :=
  inferInstanceAs (Decidable (∃ i ∈ l, Iv.Mem v i))

instance (v : Int) (s : IntervalSet) : Decidable (MemSet v s) :=
  inferInstanceAs (Decidable (MemList v s.intervals))

/-! ## Basic lemmas about the invariant -/

theorem goodIvs_cons {mn mx : Int} {i : Iv} {l : List Iv} :
    GoodIvs mn mx (i :: l) ↔ (i.Nonempty ∧ mn ≤ i.lb ∧ i.ub ≤ mx) ∧ GoodIvs mn mx l := by
  simp [GoodIvs]

theorem goodList_cons {mn mx : Int} {i : Iv} {l : List Iv} (h : GoodList mn mx (i :: l)) :
    GoodList mn mx l :=
  ⟨fun j hj => h.1 j (List.mem_cons_of_mem _ hj), (List.chain'_cons'.mp h.2).2⟩

/-- In a canonical list, the head's upper bound is separated from every
later interval's lower bound by a gap. -/
theorem gap_head {mn mx : Int} : ∀ {a : Iv} {l : List Iv}, GoodList mn mx (a :: l) →
    ∀ b ∈ l, a.ub + 1 < b.lb := by
  intro a l
  induction l generalizing a with
  | nil => intro _ b hb; cases hb
  | cons y l ih =>
    intro h b hb
    have hsep : Sep mx a y := (List.chain'_cons.mp h.2).1
    rcases List.mem_cons.mp hb with rfl | hb'
    · exact hsep.2
    · have hy : y.Nonempty := (h.1 y (by simp)).1
      have := ih (goodList_cons h) b hb'
      have : y.ub + 1 < b.lb := this
      have : a.ub + 1 < y.lb := hsep.2
      simp only [Iv.Nonempty] at hy
      omega

theorem goodList_pairwise {mn mx : Int} {l : List Iv} (h : GoodList mn mx l) :
    l.Pairwise (fun a b => a.ub + 1 < b.lb) := by
  induction l with
  | nil => exact List.Pairwise.nil
  | cons a l ih =>
    exact List.pairwise_cons.mpr ⟨gap_head h, ih (goodList_cons h)⟩

theorem goodList_sorted {mn mx : Int} {l : List Iv} (h : GoodList mn mx l) :
    l.Pairwise (fun a b => a.lb ≤ b.lb) := by
  refine (goodList_pairwise h).imp_of_mem ?_
  intro a b ha _ hab
  have hna : a.Nonempty := (h.1 a ha).1
  simp only [Iv.Nonempty] at hna
  omega

theorem memList_nil {v : Int} : ¬ MemList v ([] : List Iv) := by
  simp [MemList]

theorem memList_cons {v : Int} {i : Iv} {l : List Iv} :
    MemList v (i :: l) ↔ Iv.Mem v i ∨ MemList v l := by
  simp [MemList]

theorem memList_append {v : Int} {l₁ l₂ : List Iv} :
    MemList v (l₁ ++ l₂) ↔ MemList v l₁ ∨ MemList v l₂ := by
  simp [MemList, or_and_right, exists_or]

theorem memList_singleton {v : Int} {i : Iv} :
    MemList v [i] ↔ Iv.Mem v i := by
  simp [MemList]

theorem memList_lb_le {mn mx : Int} {a : Iv} {l : List Iv} (h : GoodList mn mx (a :: l))
    {v : Int} (hv : MemList v (a :: l)) : a.lb ≤ v := by
  rcases memList_cons.mp hv with hm | ⟨i, hi, hm⟩
  · exact hm.1
  · have := gap_head h i hi
    have hna : a.Nonempty := (h.1 a (by simp)).1
    simp only [Iv.Nonempty] at hna
    have := hm.1
    omega

theorem mem_of_getLast?_eq {l : List Iv} {b : Iv} (h : l.getLast? = some b) : b ∈ l := by
  cases l with
  | nil => simp at h
  | cons a l =>
    have hne : (a :: l) ≠ [] := by simp
    rw [List.getLast?_eq_getLast _ hne] at h
    have hb := Option.some_injective _ h
    rw [← hb]
    exact List.getLast_mem hne

theorem memList_le_last_ub {mn mx : Int} : ∀ {l : List Iv}, GoodList mn mx l →
    ∀ {v : Int}, MemList v l → ∀ b, l.getLast? = some b → v ≤ b.ub := by
  intro l
  induction l with
  | nil => intro _ v hv; exact absurd hv memList_nil
  | cons a l ih =>
    intro h v hv b hb
    cases l with
    | nil =>
      simp at hb
      rcases memList_cons.mp hv with hm | hm
      · subst hb; exact hm.2
      · exact absurd hm memList_nil
    | cons y l' =>
      rw [List.getLast?_cons_cons] at hb
      rcases memList_cons.mp hv with hm | hm
      · have hgap := gap_head h
        have hbmem : b ∈ y :: l' := mem_of_getLast?_eq hb
        have h1 := hgap b hbmem
        have h2 := hm.2
        have h3 : b.Nonempty := (h.1 b (List.mem_cons_of_mem _ hbmem)).1
        simp only [Iv.Nonempty] at h3
        omega
      · exact ih (goodList_cons h) hm b hb

theorem sumSizes_nil : sumSizes [] = 0 := rfl

theorem sumSizes_cons {i : Iv} {l : List Iv} : sumSizes (i :: l) = i.size + sumSizes l := by
  simp [sumSizes]

theorem sumSizes_append {l₁ l₂ : List Iv} :
    sumSizes (l₁ ++ l₂) = sumSizes l₁ + sumSizes l₂ := by
  simp [sumSizes]

theorem pushAll_eq : ∀ (l : List Iv) (s : IntervalSet),
    pushAll s l = ⟨s.intervals ++ l, s.size + sumSizes l⟩ := by
  intro l
  induction l with
  | nil => intro s; simp [pushAll, push, sumSizes]
  | cons i l ih =>
    intro s
    show pushAll (s.push i) l = _
    rw [ih]
    simp [push, sumSizes_cons]
    omega

theorem memSet_def {v : Int} {s : IntervalSet} : MemSet v s ↔ MemList v s.intervals := Iff.rfl

/-! ## `join_or_push` -/

theorem joinable_eq_false_iff {mx : Int} {a b : Iv} :
    joinable mx a b = false ↔ Sep mx a b := by
  simp only [joinable, Sep]
  split
  all_goals simp_all

theorem hull_of_nonempty {i j : Iv} (hi : i.Nonempty) (hj : j.Nonempty) :
    i.hull j = ⟨min i.lb j.lb, max i.ub j.ub⟩ := by
  simp only [Iv.Nonempty] at hi hj
  have h1 : i.isEmpty = false := by simp only [Iv.isEmpty, decide_eq_false_iff_not]; omega
  have h2 : j.isEmpty = false := by simp only [Iv.isEmpty, decide_eq_false_iff_not]; omega
  simp [Iv.hull, h1, h2]

theorem joinOrPush_of_getLast_none {mx : Int} {s : IntervalSet} (h : s.intervals.getLast? = none)
    (x : Iv) : joinOrPush mx s x = s.push x := by
  unfold joinOrPush; rw [h]

theorem joinOrPush_of_getLast_some {mx : Int} {s : IntervalSet} {b : Iv}
    (h : s.intervals.getLast? = some b) (x : Iv) :
    joinOrPush mx s x =
      if joinable mx b x then
        ⟨s.intervals.dropLast ++ [b.hull x], s.size - b.size + (b.hull x).size⟩
      else s.push x := by
  unfold joinOrPush; rw [h]

theorem size_of_nonempty {i : Iv} (hi : i.Nonempty) : (i.size : Int) = i.ub + 1 - i.lb := by
  simp only [Iv.Nonempty] at hi
  simp only [Iv.size]
  omega

theorem joinOrPush_spec {mn mx : Int} {res : IntervalSet} {x : Iv}
    (hres : Canonical mn mx res) (hx : x.Nonempty) (hxl : mn ≤ x.lb) (hxu : x.ub ≤ mx)
    (hle : ∀ b, res.intervals.getLast? = some b → b.lb ≤ x.lb) :
    Canonical mn mx (joinOrPush mx res x) ∧
    (∀ v, MemSet v (joinOrPush mx res x) ↔ MemSet v res ∨ Iv.Mem v x) ∧
    (∀ b', (joinOrPush mx res x).intervals.getLast? = some b' → b'.lb ≤ x.lb) ∧
    (joinOrPush mx res x).intervals ≠ [] := by
  rcases hcase : res.intervals.getLast? with _ | b
  · -- empty store: plain push
    have hnil : res.intervals = [] := List.getLast?_eq_none_iff.mp hcase
    have hsize : res.size = 0 := by
      have := hres.2; rw [hnil] at this; simpa [sumSizes] using this
    rw [joinOrPush_of_getLast_none hcase]
    simp only [push, hnil, hsize, List.nil_append, Nat.zero_add]
    refine ⟨⟨⟨?_, ?_⟩, by simp [sumSizes]⟩, ?_, ?_, by simp⟩
    · intro i hi; simp at hi; subst hi; exact ⟨hx, hxl, hxu⟩
    · simp
    · intro v
      simp [MemSet, hnil, memList_cons, memList_nil, memList_singleton]
    · intro b' hb'; simp at hb'; subst hb'; exact le_refl _
  · -- non-empty store
    have hne : res.intervals ≠ [] := by
      intro hnil; rw [hnil] at hcase; simp at hcase
    have hblast : res.intervals.getLast hne = b := by
      have := List.getLast?_eq_getLast res.intervals hne
      rw [hcase] at this; exact (Option.some_injective _ this).symm
    have hbmem : b ∈ res.intervals := hblast ▸ List.getLast_mem hne
    have hsplit : res.intervals.dropLast ++ [b] = res.intervals := by
      rw [← hblast]; exact List.dropLast_append_getLast hne
    have hgoodb := hres.1.1 b hbmem
    have hnb : b.lb ≤ b.ub := hgoodb.1
    have hbub : b.ub ≤ mx := hgoodb.2.2
    have hbmn : mn ≤ b.lb := hgoodb.2.1
    have hxne : x.lb ≤ x.ub := hx
    have hblb : b.lb ≤ x.lb := hle b hcase
    have hchain : (res.intervals.dropLast ++ [b]).Chain' (Sep mx) := by
      rw [hsplit]; exact hres.1.2
    have hchain' := List.chain'_append.mp hchain
    have hsizes : res.size = sumSizes res.intervals.dropLast + b.size := by
      have h2 := hres.2
      rw [← hsplit] at h2
      rw [h2, sumSizes_append, sumSizes_cons, sumSizes_nil]
      omega
    have hgoods : GoodIvs mn mx res.intervals.dropLast := by
      intro i hi
      exact hres.1.1 i (List.dropLast_subset _ hi)
    rw [joinOrPush_of_getLast_some hcase]
    by_cases hj : joinable mx b x = true
    · rw [if_pos hj]
      have hcond : b.ub = mx ∨ x.lb ≤ b.ub + 1 := by
        simp only [joinable] at hj
        by_cases hbm : b.ub = mx
        · exact Or.inl hbm
        · rw [if_neg hbm] at hj
          right
          simp only [ge_iff_le, decide_eq_true_eq] at hj
          omega
      have hcontig : x.lb ≤ b.ub + 1 := by
        rcases hcond with hbm | h
        · omega
        · exact h
      have hhull : b.hull x = ⟨min b.lb x.lb, max b.ub x.ub⟩ :=
        hull_of_nonempty hgoodb.1 hx
      -- membership of the hull equals membership of `b` or `x`
      have hmemhull : ∀ v, Iv.Mem v (b.hull x) ↔ Iv.Mem v b ∨ Iv.Mem v x := by
        intro v
        rw [hhull]
        simp only [Iv.Mem]
        omega
      refine ⟨⟨⟨?_, ?_⟩, ?_⟩, ?_, ?_, by simp⟩
      · -- good intervals
        intro i hi
        rcases List.mem_append.mp hi with hi | hi
        · exact hgoods i hi
        · simp at hi; subst hi
          rw [hhull]
          exact ⟨show min b.lb x.lb ≤ max b.ub x.ub by omega,
            show mn ≤ min b.lb x.lb by omega, show max b.ub x.ub ≤ mx by omega⟩
      · -- chain
        refine List.chain'_append.mpr ⟨hchain'.1, List.chain'_singleton _, ?_⟩
        intro p hp q hq
        simp at hq; subst hq
        have hsp := hchain'.2.2 p hp b (by simp)
        rw [hhull]
        refine ⟨hsp.1, ?_⟩
        have h2 := hsp.2
        dsimp only
        omega
      · -- cached size
        show res.size - b.size + (b.hull x).size = sumSizes (res.intervals.dropLast ++ [b.hull x])
        rw [sumSizes_append, sumSizes_cons, sumSizes_nil, hsizes]
        omega
      · -- membership
        intro v
        have hsplit' : MemList v res.intervals ↔
            MemList v res.intervals.dropLast ∨ Iv.Mem v b := by
          conv_lhs => rw [← hsplit]
          rw [memList_append, memList_singleton]
        show MemList v (res.intervals.dropLast ++ [b.hull x]) ↔ MemList v res.intervals ∨ _
        rw [memList_append, memList_singleton, hmemhull v, hsplit']
        tauto
      · -- last lower bound
        intro b' hb'
        simp at hb'
        subst hb'
        rw [hhull]
        show min b.lb x.lb ≤ x.lb
        omega
    · have hsep : Sep mx b x := joinable_eq_false_iff.mp (by simpa using hj)
      rw [if_neg hj]
      refine ⟨⟨⟨?_, ?_⟩, ?_⟩, ?_, ?_, by simp [push]⟩
      · intro i hi
        simp only [push] at hi
        rcases List.mem_append.mp hi with hi | hi
        · exact hres.1.1 i hi
        · simp at hi; subst hi; exact ⟨hx, hxl, hxu⟩
      · show (res.intervals ++ [x]).Chain' (Sep mx)
        refine List.chain'_append.mpr ⟨hres.1.2, List.chain'_singleton _, ?_⟩
        intro p hp q hq
        simp at hq; subst hq
        rw [hcase] at hp; simp at hp; subst hp
        exact hsep
      · show res.size + x.size = sumSizes (res.intervals ++ [x])
        rw [sumSizes_append, sumSizes_cons, sumSizes_nil, hres.2]
        omega
      · intro v
        show MemList v (res.intervals ++ [x]) ↔ _
        rw [memList_append, memList_singleton]
        exact Iff.rfl
      · intro b' hb'
        simp only [push] at hb'
        simp at hb'
        subst hb'
        exact le_refl _

/-! ## `extend_at_back` -/

theorem head_lb_le_of_mem {mn mx : Int} {l : List Iv} (hg : GoodList mn mx l) {hd : Iv}
    (hh : l.head? = some hd) : ∀ y ∈ l, hd.lb ≤ y.lb := by
  cases l with
  | nil => simp at hh
  | cons a l =>
    simp at hh
    subst hh
    intro y hy
    rcases List.mem_cons.mp hy with rfl | hy'
    · exact le_refl _
    · have h1 := gap_head hg y hy'
      have h2 : a.Nonempty := (hg.1 a (by simp)).1
      simp only [Iv.Nonempty] at h2
      omega

theorem canonical_emptySet {mn mx : Int} : Canonical mn mx emptySet := by
  refine ⟨⟨?_, ?_⟩, ?_⟩ <;> simp [emptySet, GoodIvs, sumSizes]

theorem extendAtBack_spec {mn mx : Int} : ∀ (l : List Iv) (res : IntervalSet),
    Canonical mn mx res →
    GoodIvs mn mx l →
    l.Pairwise (fun a b => a.lb ≤ b.lb) →
    (∀ b, res.intervals.getLast? = some b → ∀ y ∈ l, b.lb ≤ y.lb) →
    Canonical mn mx (extendAtBack mx res l) ∧
    (∀ v, MemSet v (extendAtBack mx res l) ↔ MemSet v res ∨ MemList v l) := by
  intro l
  induction l with
  | nil =>
    intro res hres _ _ _
    exact ⟨hres, by intro v; simp [extendAtBack, memList_nil]⟩
  | cons y l ih =>
    intro res hres hg hp hlast
    have hy := hg y (by simp)
    have hjp := joinOrPush_spec hres hy.1 hy.2.1 hy.2.2 (fun b hb => hlast b hb y (by simp))
    have hstep : extendAtBack mx res (y :: l) = extendAtBack mx (joinOrPush mx res y) l := rfl
    rw [hstep]
    have hlast' : ∀ b, (joinOrPush mx res y).intervals.getLast? = some b →
        ∀ z ∈ l, b.lb ≤ z.lb := by
      intro b hb z hz
      have h1 := hjp.2.2.1 b hb
      have h2 := (List.pairwise_cons.mp hp).1 z hz
      omega
    have ihres := ih (joinOrPush mx res y) hjp.1 (fun i hi => hg i (by simp [hi]))
      (List.pairwise_cons.mp hp).2 hlast'
    refine ⟨ihres.1, fun v => ?_⟩
    rw [ihres.2 v, hjp.2.1 v, memList_cons]
    tauto

/-- When the appended intervals continue the gap-separated chain, the
`join_or_push` fold reduces to plain concatenation. -/
theorem extendAtBack_of_sep {mx : Int} : ∀ (l : List Iv) (res : IntervalSet),
    (res.intervals ++ l).Chain' (Sep mx) →
    extendAtBack mx res l = ⟨res.intervals ++ l, res.size + sumSizes l⟩ := by
  intro l
  induction l with
  | nil =>
    intro res _
    cases res
    simp [extendAtBack, sumSizes]
  | cons y l ih =>
    intro res hchain
    have hstep : extendAtBack mx res (y :: l) = extendAtBack mx (joinOrPush mx res y) l := rfl
    have hjp : joinOrPush mx res y = res.push y := by
      rcases hcase : res.intervals.getLast? with _ | b
      · exact joinOrPush_of_getLast_none hcase y
      · rw [joinOrPush_of_getLast_some hcase]
        have hsep : Sep mx b y := (List.chain'_append.mp hchain).2.2 b hcase y rfl
        rw [← joinable_eq_false_iff] at hsep
        simp [hsep]
    rw [hstep, hjp]
    have hl : (res.push y).intervals ++ l = res.intervals ++ y :: l := by
      simp [push]
    rw [ih (res.push y) (by rw [hl]; exact hchain)]
    simp [push, sumSizes_cons, List.append_assoc]
    omega

/-- Rebuilding a canonical set by folding `join_or_push` over its own interval
list from the empty set yields the set itself. -/
theorem rebuild_canonical {mn mx : Int} {s : IntervalSet} (hs : Canonical mn mx s) :
    extendAtBack mx emptySet s.intervals = s := by
  have h := extendAtBack_of_sep s.intervals emptySet (by
    show (([] : List Iv) ++ s.intervals).Chain' (Sep mx)
    simpa using hs.1.2)
  rw [h]
  cases s with
  | mk ints sz =>
    simp only [emptySet, List.nil_append, Nat.zero_add, IntervalSet.mk.injEq]
    exact ⟨trivial, hs.2.symm⟩

/-! ## Union -/

theorem unionLoop_nil_left {mx : Int} (b : List Iv) (res : IntervalSet) :
    unionLoop mx [] b res = extendAtBack mx res b := by
  simp [unionLoop]

theorem unionLoop_nil_right {mx : Int} (a : List Iv) (res : IntervalSet) :
    unionLoop mx a [] res = extendAtBack mx res a := by
  cases a with
  | nil => simp [unionLoop]
  | cons i a => simp [unionLoop]

theorem unionLoop_cons_cons_pos {mx : Int} {i j : Iv} (a b : List Iv) (res : IntervalSet)
    (h : i.lb < j.lb) :
    unionLoop mx (i :: a) (j :: b) res = unionLoop mx a (j :: b) (joinOrPush mx res i) := by
  simp only [unionLoop]
  rw [if_pos h]

theorem unionLoop_cons_cons_neg {mx : Int} {i j : Iv} (a b : List Iv) (res : IntervalSet)
    (h : ¬ i.lb < j.lb) :
    unionLoop mx (i :: a) (j :: b) res = unionLoop mx (i :: a) b (joinOrPush mx res j) := by
  simp only [unionLoop]
  rw [if_neg h]

theorem unionLoop_spec {mn mx : Int} (a b : List Iv) (res : IntervalSet) :
    Canonical mn mx res →
    GoodList mn mx a → GoodList mn mx b →
    (∀ bl, res.intervals.getLast? = some bl →
      (∀ y, a.head? = some y → bl.lb ≤ y.lb) ∧ (∀ y, b.head? = some y → bl.lb ≤ y.lb)) →
    Canonical mn mx (unionLoop mx a b res) ∧
    (∀ v, MemSet v (unionLoop mx a b res) ↔ MemSet v res ∨ MemList v a ∨ MemList v b) := by
  induction a, b, res using unionLoop.induct mx with
  | case1 b res =>
    intro hres _ hgb hlast
    rw [unionLoop_nil_left]
    have h := extendAtBack_spec b res hres hgb.1 (goodList_sorted hgb) ?_
    · exact ⟨h.1, fun v => by rw [h.2 v]; simp [memList_nil]⟩
    · intro bl hbl y hy
      cases b with
      | nil => cases hy
      | cons hd tl =>
        have h1 := (hlast bl hbl).2 hd rfl
        have h2 := head_lb_le_of_mem hgb rfl y hy
        omega
  | case2 i a res =>
    intro hres hga _ hlast
    rw [unionLoop_nil_right]
    have h := extendAtBack_spec (i :: a) res hres hga.1 (goodList_sorted hga) ?_
    · exact ⟨h.1, fun v => by rw [h.2 v]; simp [memList_nil]⟩
    · intro bl hbl y hy
      have h1 := (hlast bl hbl).1 i rfl
      have h2 := head_lb_le_of_mem hga rfl y hy
      omega
  | case3 i a j b res hlt ih =>
    intro hres hga hgb hlast
    have hi := hga.1 i (by simp)
    have hjp := joinOrPush_spec hres hi.1 hi.2.1 hi.2.2
      (fun bl hbl => (hlast bl hbl).1 i rfl)
    rw [unionLoop_cons_cons_pos a b res hlt]
    have hlast' : ∀ bl, (joinOrPush mx res i).intervals.getLast? = some bl →
        (∀ y, a.head? = some y → bl.lb ≤ y.lb) ∧
        (∀ y, (j :: b).head? = some y → bl.lb ≤ y.lb) := by
      intro bl hbl
      have h1 := hjp.2.2.1 bl hbl
      constructor
      · intro y hy
        have h2 := head_lb_le_of_mem hga (by rfl) y
          (List.mem_cons_of_mem _ (List.mem_of_mem_head? hy))
        have h3 := gap_head hga y (List.mem_of_mem_head? hy)
        omega
      · intro y hy
        simp at hy; subst hy
        omega
    have ihres := ih hjp.1 (goodList_cons hga) hgb hlast'
    refine ⟨ihres.1, fun v => ?_⟩
    rw [ihres.2 v, hjp.2.1 v]
    rw [show MemList v (i :: a) ↔ Iv.Mem v i ∨ MemList v a from memList_cons]
    tauto
  | case4 i a j b res hnlt ih =>
    intro hres hga hgb hlast
    have hj := hgb.1 j (by simp)
    have hjp := joinOrPush_spec hres hj.1 hj.2.1 hj.2.2
      (fun bl hbl => (hlast bl hbl).2 j rfl)
    rw [unionLoop_cons_cons_neg a b res hnlt]
    have hlast' : ∀ bl, (joinOrPush mx res j).intervals.getLast? = some bl →
        (∀ y, (i :: a).head? = some y → bl.lb ≤ y.lb) ∧
        (∀ y, b.head? = some y → bl.lb ≤ y.lb) := by
      intro bl hbl
      have h1 := hjp.2.2.1 bl hbl
      constructor
      · intro y hy
        simp at hy; subst hy
        omega
      · intro y hy
        have h2 := head_lb_le_of_mem hgb (by rfl) y
          (List.mem_cons_of_mem _ (List.mem_of_mem_head? hy))
        have h3 := gap_head hgb y (List.mem_of_mem_head? hy)
        omega
    have ihres := ih hjp.1 hga (goodList_cons hgb) hlast'
    refine ⟨ihres.1, fun v => ?_⟩
    rw [ihres.2 v, hjp.2.1 v]
    rw [show MemList v (j :: b) ↔ Iv.Mem v j ∨ MemList v b from memList_cons]
    tauto

/-- The union of two canonical sets is canonical and denotes the pointwise
union. -/
theorem union_spec {mn mx : Int} {s t : IntervalSet}
    (hs : Canonical mn mx s) (ht : Canonical mn mx t) :
    Canonical mn mx (union mx s t) ∧
    (∀ v, MemSet v (union mx s t) ↔ MemSet v s ∨ MemSet v t) := by
  have h := unionLoop_spec s.intervals t.intervals emptySet canonical_emptySet hs.1 ht.1
    (by intro bl hbl; simp [emptySet] at hbl)
  refine ⟨h.1, fun v => ?_⟩
  rw [show union mx s t = unionLoop mx s.intervals t.intervals emptySet from rfl] at *
  rw [h.2 v]
  simp [MemSet, emptySet, memList_nil]

/-! ## Uniqueness of the canonical representation -/

theorem goodList_eq_of_mem_iff {mn mx : Int} : ∀ (l₁ l₂ : List Iv),
    GoodList mn mx l₁ → GoodList mn mx l₂ →
    (∀ v, MemList v l₁ ↔ MemList v l₂) → l₁ = l₂ := by
  intro l₁
  induction l₁ with
  | nil =>
    intro l₂ _ hg₂ hmem
    cases l₂ with
    | nil => rfl
    | cons j l₂ =>
      have hj : j.Nonempty := (hg₂.1 j (by simp)).1
      have : MemList j.lb ([] : List Iv) := (hmem j.lb).mpr ⟨j, by simp, le_refl _, hj⟩
      exact absurd this memList_nil
  | cons i l₁ ih =>
    intro l₂ hg₁ hg₂ hmem
    cases l₂ with
    | nil =>
      have hi : i.Nonempty := (hg₁.1 i (by simp)).1
      have : MemList i.lb ([] : List Iv) := (hmem i.lb).mp ⟨i, by simp, le_refl _, hi⟩
      exact absurd this memList_nil
    | cons j l₂ =>
      have hi : i.Nonempty := (hg₁.1 i (by simp)).1
      have hj : j.Nonempty := (hg₂.1 j (by simp)).1
      simp only [Iv.Nonempty] at hi hj
      -- the least members coincide, so the head lower bounds coincide
      have hlb : i.lb = j.lb := by
        have h1 : MemList i.lb (j :: l₂) := (hmem i.lb).mp ⟨i, by simp, le_refl _, hi⟩
        have h2 : MemList j.lb (i :: l₁) := (hmem j.lb).mpr ⟨j, by simp, le_refl _, hj⟩
        have h3 := memList_lb_le hg₂ h1
        have h4 := memList_lb_le hg₁ h2
        omega
      -- the head upper bounds coincide
      have hub : i.ub = j.ub := by
        rcases lt_trichotomy i.ub j.ub with hlt | heq | hgt
        · exfalso
          have hv : MemList (i.ub + 1) (i :: l₁) :=
            (hmem _).mpr ⟨j, by simp, by omega, by omega⟩
          rcases memList_cons.mp hv with hm | ⟨k, hk, hmk⟩
          · exact absurd hm.2 (by omega)
          · have := gap_head hg₁ k hk
            have := hmk.1
            omega
        · exact heq
        · exfalso
          have hv : MemList (j.ub + 1) (j :: l₂) :=
            (hmem _).mp ⟨i, by simp, by omega, by omega⟩
          rcases memList_cons.mp hv with hm | ⟨k, hk, hmk⟩
          · exact absurd hm.2 (by omega)
          · have := gap_head hg₂ k hk
            have := hmk.1
            omega
      have hij : i = j := by cases i; cases j; simp_all
      subst hij
      -- tails have the same members
      have htails : ∀ v, MemList v l₁ ↔ MemList v l₂ := by
        intro v
        by_cases hv : v ≤ i.ub
        · constructor
          · intro ⟨k, hk, hmk⟩
            exact absurd hmk.1 (by have := gap_head hg₁ k hk; omega)
          · intro ⟨k, hk, hmk⟩
            exact absurd hmk.1 (by have := gap_head hg₂ k hk; omega)
        · have h1 : ¬ Iv.Mem v i := fun hm => hv hm.2
          have h2 := hmem v
          rw [memList_cons, memList_cons] at h2
          constructor
          · intro hm
            rcases h2.mp (Or.inr hm) with hm' | hm'
            · exact absurd hm' h1
            · exact hm'
          · intro hm
            rcases h2.mpr (Or.inr hm) with hm' | hm'
            · exact absurd hm' h1
            · exact hm'
      rw [ih l₂ (goodList_cons hg₁) (goodList_cons hg₂) htails]

/-- Two canonical sets with the same members are equal (structurally, cached
size included). -/
theorem canonical_ext {mn mx : Int} {s t : IntervalSet}
    (hs : Canonical mn mx s) (ht : Canonical mn mx t)
    (h : ∀ v, MemSet v s ↔ MemSet v t) : s = t := by
  have hl : s.intervals = t.intervals :=
    goodList_eq_of_mem_iff s.intervals t.intervals hs.1 ht.1 h
  cases s with
  | mk ints₁ sz₁ =>
    cases t with
    | mk ints₂ sz₂ =>
      simp only at hl
      subst hl
      have h1 := hs.2
      have h2 := ht.2
      simp only at h1 h2
      simp [h1, h2]

/-- A canonical set united with the empty set is returned unchanged. -/
theorem union_emptySet_right {mn mx : Int} {s : IntervalSet} (hs : Canonical mn mx s) :
    union mx s emptySet = s := by
  show unionLoop mx s.intervals [] emptySet = s
  rw [unionLoop_nil_right]
  exact rebuild_canonical hs

/-! ## Claim C2: union laws -/

/-- C2: union is commutative on canonical sets, the empty set is its identity,
union is idempotent, and `{[1..4],[6..7]} ∪ {[5..5]} = {[1..7]}` (the gap is
filled exactly). -/
theorem union_laws :
    (∀ (mn mx : Int) (A B : IntervalSet), Canonical mn mx A → Canonical mn mx B →
      union mx A B = union mx B A ∧ union mx A emptySet = A ∧ union mx A A = A) ∧
    union mx32 (toIntervalSet mx32 [(1, 4), (6, 7)]) (toIntervalSet mx32 [(5, 5)]) =
      toIntervalSet mx32 [(1, 7)] := by
  constructor
  · intro mn mx A B hA hB
    have hAB := union_spec hA hB
    have hBA := union_spec hB hA
    have hAA := union_spec hA hA
    refine ⟨?_, union_emptySet_right hA, ?_⟩
    · refine canonical_ext hAB.1 hBA.1 (fun v => ?_)
      rw [hAB.2 v, hBA.2 v]
      tauto
    · refine canonical_ext hAA.1 hA (fun v => ?_)
      rw [hAA.2 v]
      tauto
  · have h1 : Canonical mn32 mx32 (toIntervalSet mx32 [(1, 4), (6, 7)]) := by decide
    have h2 : Canonical mn32 mx32 (toIntervalSet mx32 [(5, 5)]) := by decide
    have h3 : Canonical mn32 mx32 (toIntervalSet mx32 [(1, 7)]) := by decide
    have hu := union_spec h1 h2
    refine canonical_ext hu.1 h3 (fun v => ?_)
    rw [hu.2 v]
    have e1 : toIntervalSet mx32 [(1, 4), (6, 7)] = ⟨[⟨1, 4⟩, ⟨6, 7⟩], 6⟩ := by decide
    have e2 : toIntervalSet mx32 [(5, 5)] = ⟨[⟨5, 5⟩], 1⟩ := by decide
    have e3 : toIntervalSet mx32 [(1, 7)] = ⟨[⟨1, 7⟩], 7⟩ := by decide
    rw [e1, e2, e3]
    simp only [MemSet, MemList, List.mem_cons, List.mem_singleton, Iv.Mem,
      List.not_mem_nil, or_false, exists_eq_or_imp, exists_eq_left]
    omega

/-- Witness for C2 at concrete canonical operands over the `i32` sentinels. -/
theorem union_laws_witness :
    union mx32 (toIntervalSet mx32 [(1, 4), (6, 7)]) (toIntervalSet mx32 [(5, 5)]) =
      union mx32 (toIntervalSet mx32 [(5, 5)]) (toIntervalSet mx32 [(1, 4), (6, 7)]) ∧
    union mx32 (toIntervalSet mx32 [(1, 4), (6, 7)]) emptySet =
      toIntervalSet mx32 [(1, 4), (6, 7)] ∧
    union mx32 (toIntervalSet mx32 [(1, 4), (6, 7)]) (toIntervalSet mx32 [(1, 4), (6, 7)]) =
      toIntervalSet mx32 [(1, 4), (6, 7)] :=
  union_laws.1 mn32 mx32 _ _ (by decide) (by decide)

/-! ## Intersection -/

theorem push_spec {mn mx : Int} {res : IntervalSet} {x : Iv}
    (hres : Canonical mn mx res) (hx : x.Nonempty) (hxl : mn ≤ x.lb) (hxu : x.ub ≤ mx)
    (hsep : ∀ b, res.intervals.getLast? = some b → Sep mx b x) :
    Canonical mn mx (res.push x) ∧
    (∀ v, MemSet v (res.push x) ↔ MemSet v res ∨ Iv.Mem v x) ∧
    (res.push x).intervals.getLast? = some x := by
  refine ⟨⟨⟨?_, ?_⟩, ?_⟩, ?_, ?_⟩
  · intro i hi
    simp only [push] at hi
    rcases List.mem_append.mp hi with hi | hi
    · exact hres.1.1 i hi
    · simp at hi; subst hi; exact ⟨hx, hxl, hxu⟩
  · show (res.intervals ++ [x]).Chain' (Sep mx)
    refine List.chain'_append.mpr ⟨hres.1.2, List.chain'_singleton _, ?_⟩
    intro p hp q hq
    simp at hq; subst hq
    exact hsep p hp
  · show res.size + x.size = sumSizes (res.intervals ++ [x])
    rw [sumSizes_append, sumSizes_cons, sumSizes_nil, hres.2]
    omega
  · intro v
    show MemList v (res.intervals ++ [x]) ↔ _
    rw [memList_append, memList_singleton]
    exact Iff.rfl
  · show (res.intervals ++ [x]).getLast? = some x
    simp

theorem interLoop_eq_self : ∀ (a b : List Iv) (res : IntervalSet),
    (∀ (i : Iv) (a' : List Iv) (j : Iv) (b' : List Iv), a = i :: a' → b = j :: b' → False) →
    interLoop a b res = res := by
  intro a b res h
  cases a with
  | nil => cases b <;> simp [interLoop]
  | cons i a' =>
    cases b with
    | nil => simp [interLoop]
    | cons j b' => exact absurd (h i a' j b' rfl rfl) (by simp)

theorem interLoop_ov_pos {i j : Iv} (a b : List Iv) (res : IntervalSet)
    (hov : i.overlapB j = true) (hlt : i.ub < j.ub) :
    interLoop (i :: a) (j :: b) res = interLoop a (j :: b) (res.push (i.inter j)) := by
  simp only [interLoop]
  rw [if_pos hov, if_pos hlt]

theorem interLoop_ov_neg {i j : Iv} (a b : List Iv) (res : IntervalSet)
    (hov : i.overlapB j = true) (hlt : ¬ i.ub < j.ub) :
    interLoop (i :: a) (j :: b) res = interLoop (i :: a) b (res.push (i.inter j)) := by
  simp only [interLoop]
  rw [if_pos hov, if_neg hlt]

theorem interLoop_skip_pos {i j : Iv} (a b : List Iv) (res : IntervalSet)
    (hov : ¬ i.overlapB j = true) (hlt : i.lb < j.lb) :
    interLoop (i :: a) (j :: b) res = interLoop a (j :: b) res := by
  simp only [interLoop]
  rw [if_neg hov, if_pos hlt]

theorem interLoop_skip_neg {i j : Iv} (a b : List Iv) (res : IntervalSet)
    (hov : ¬ i.overlapB j = true) (hlt : ¬ i.lb < j.lb) :
    interLoop (i :: a) (j :: b) res = interLoop (i :: a) b res := by
  simp only [interLoop]
  rw [if_neg hov, if_neg hlt]

theorem interLoop_spec {mn mx : Int} (a b : List Iv) (res : IntervalSet) :
    Canonical mn mx res →
    GoodList mn mx a → GoodList mn mx b →
    (∀ bl, res.intervals.getLast? = some bl →
      ∀ i j, a.head? = some i → b.head? = some j →
        bl.ub ≠ mx ∧ bl.ub + 1 < max i.lb j.lb) →
    Canonical mn mx (interLoop a b res) ∧
    (∀ v, MemSet v (interLoop a b res) ↔ MemSet v res ∨ (MemList v a ∧ MemList v b)) := by
  induction a, b, res using interLoop.induct with
  | case1 i a j b res hov res' hlt ih =>
    intro hres hga hgb hlast
    rw [interLoop_ov_pos a b res hov hlt]
    have hi := hga.1 i (by simp)
    have hj := hgb.1 j (by simp)
    have hni : i.lb ≤ i.ub := hi.1
    have hnj : j.lb ≤ j.ub := hj.1
    simp only [Iv.overlapB, decide_eq_true_eq] at hov
    -- the emitted overlap
    have hne2 : (i.inter j).Nonempty := by simp only [Iv.Nonempty, Iv.inter]; omega
    have hp := push_spec hres hne2
      (by show mn ≤ max i.lb j.lb; have := hi.2.1; omega)
      (by show min i.ub j.ub ≤ mx; have := hj.2.2; omega)
      (fun bl hbl => by
        have h1 := hlast bl hbl i j rfl rfl
        refine ⟨h1.1, ?_⟩
        show bl.ub + 1 < (i.inter j).lb
        simp only [Iv.inter]
        omega)
    have hlast' : ∀ bl, (res.push (i.inter j)).intervals.getLast? = some bl →
        ∀ i' j', a.head? = some i' → (j :: b).head? = some j' →
          bl.ub ≠ mx ∧ bl.ub + 1 < max i'.lb j'.lb := by
      intro bl hbl i' j' hi' hj'
      rw [hp.2.2] at hbl
      have hbl' := Option.some_injective _ hbl
      subst hbl'
      simp only [Iv.inter]
      have hgap := gap_head hga i' (List.mem_of_mem_head? hi')
      have := hj.2.2
      constructor
      · show min i.ub j.ub ≠ mx
        omega
      · show min i.ub j.ub + 1 < max i'.lb j'.lb
        omega
    have ihres := ih hp.1 (goodList_cons hga) hgb hlast'
    refine ⟨ihres.1, fun v => ?_⟩
    rw [ihres.2 v, hp.2.1 v]
    have hsplit : (MemList v (i :: a) ∧ MemList v (j :: b)) ↔
        (Iv.Mem v (i.inter j) ∨ (MemList v a ∧ MemList v (j :: b))) := by
      rw [memList_cons]
      constructor
      · rintro ⟨hA | hA, hB⟩
        · rcases memList_cons.mp hB with hBm | ⟨k, hk, hmk⟩
          · left
            simp only [Iv.Mem, Iv.inter] at hA hBm ⊢
            omega
          · exfalso
            have hgap := gap_head hgb k hk
            have h1 := hA.2
            have h2 := hmk.1
            omega
        · exact Or.inr ⟨hA, hB⟩
      · rintro (he | ⟨hA, hB⟩)
        · have hm : Iv.Mem v i ∧ Iv.Mem v j := by
            simp only [Iv.Mem, Iv.inter] at he ⊢
            omega
          exact ⟨Or.inl hm.1, memList_cons.mpr (Or.inl hm.2)⟩
        · exact ⟨Or.inr hA, hB⟩
    rw [hsplit]
    tauto
  | case2 i a j b res hov res' hlt ih =>
    intro hres hga hgb hlast
    rw [interLoop_ov_neg a b res hov hlt]
    have hi := hga.1 i (by simp)
    have hj := hgb.1 j (by simp)
    have hni : i.lb ≤ i.ub := hi.1
    have hnj : j.lb ≤ j.ub := hj.1
    simp only [Iv.overlapB, decide_eq_true_eq] at hov
    have hne2 : (i.inter j).Nonempty := by simp only [Iv.Nonempty, Iv.inter]; omega
    have hp := push_spec hres hne2
      (by show mn ≤ max i.lb j.lb; have := hi.2.1; omega)
      (by show min i.ub j.ub ≤ mx; have := hi.2.2; omega)
      (fun bl hbl => by
        have h1 := hlast bl hbl i j rfl rfl
        refine ⟨h1.1, ?_⟩
        show bl.ub + 1 < (i.inter j).lb
        simp only [Iv.inter]
        omega)
    have hlast' : ∀ bl, (res.push (i.inter j)).intervals.getLast? = some bl →
        ∀ i' j', (i :: a).head? = some i' → b.head? = some j' →
          bl.ub ≠ mx ∧ bl.ub + 1 < max i'.lb j'.lb := by
      intro bl hbl i' j' hi' hj'
      rw [hp.2.2] at hbl
      have hbl' := Option.some_injective _ hbl
      subst hbl'
      simp at hi'
      subst hi'
      simp only [Iv.inter]
      have hgap := gap_head hgb j' (List.mem_of_mem_head? hj')
      have hj'good := hgb.1 j' (List.mem_cons_of_mem _ (List.mem_of_mem_head? hj'))
      have hj'ne : j'.lb ≤ j'.ub := hj'good.1
      have hj'ub : j'.ub ≤ mx := hj'good.2.2
      constructor
      · show min i.ub j.ub ≠ mx
        omega
      · show min i.ub j.ub + 1 < max i.lb j'.lb
        omega
    have ihres := ih hp.1 hga (goodList_cons hgb) hlast'
    refine ⟨ihres.1, fun v => ?_⟩
    rw [ihres.2 v, hp.2.1 v]
    have hsplit : (MemList v (i :: a) ∧ MemList v (j :: b)) ↔
        (Iv.Mem v (i.inter j) ∨ (MemList v (i :: a) ∧ MemList v b)) := by
      rw [show MemList v (j :: b) ↔ Iv.Mem v j ∨ MemList v b from memList_cons]
      constructor
      · rintro ⟨hA, hB | hB⟩
        · rcases memList_cons.mp hA with hAm | ⟨k, hk, hmk⟩
          · left
            simp only [Iv.Mem, Iv.inter] at hAm hB ⊢
            omega
          · exfalso
            have hgap := gap_head hga k hk
            have h1 := hB.2
            have h2 := hmk.1
            omega
        · exact Or.inr ⟨hA, hB⟩
      · rintro (he | ⟨hA, hB⟩)
        · have hm : Iv.Mem v i ∧ Iv.Mem v j := by
            simp only [Iv.Mem, Iv.inter] at he ⊢
            omega
          exact ⟨memList_cons.mpr (Or.inl hm.1), Or.inl hm.2⟩
        · exact ⟨hA, Or.inr hB⟩
    rw [hsplit]
    tauto
  | case3 i a j b res hov hlt ih =>
    intro hres hga hgb hlast
    rw [interLoop_skip_pos a b res hov hlt]
    have hi := hga.1 i (by simp)
    have hj := hgb.1 j (by simp)
    have hni : i.lb ≤ i.ub := hi.1
    have hnj : j.lb ≤ j.ub := hj.1
    simp only [Iv.overlapB, decide_eq_true_eq] at hov
    push_neg at hov
    have hiub : i.ub < j.lb := by omega
    have hlast' : ∀ bl, res.intervals.getLast? = some bl →
        ∀ i' j', a.head? = some i' → (j :: b).head? = some j' →
          bl.ub ≠ mx ∧ bl.ub + 1 < max i'.lb j'.lb := by
      intro bl hbl i' j' hi' hj'
      have h1 := hlast bl hbl i j rfl rfl
      simp at hj'
      subst hj'
      have hgap := gap_head hga i' (List.mem_of_mem_head? hi')
      exact ⟨h1.1, by have := h1.2; omega⟩
    have ihres := ih hres (goodList_cons hga) hgb hlast'
    refine ⟨ihres.1, fun v => ?_⟩
    rw [ihres.2 v]
    have hsplit : (MemList v (i :: a) ∧ MemList v (j :: b)) ↔
        (MemList v a ∧ MemList v (j :: b)) := by
      rw [show MemList v (i :: a) ↔ Iv.Mem v i ∨ MemList v a from memList_cons]
      constructor
      · rintro ⟨hA | hA, hB⟩
        · exfalso
          rcases memList_cons.mp hB with hBm | ⟨k, hk, hmk⟩
          · have := hA.2
            have := hBm.1
            omega
          · have hgap := gap_head hgb k hk
            have := hA.2
            have := hmk.1
            omega
        · exact ⟨hA, hB⟩
      · rintro ⟨hA, hB⟩
        exact ⟨Or.inr hA, hB⟩
    rw [hsplit]
  | case4 i a j b res hov hlt ih =>
    intro hres hga hgb hlast
    rw [interLoop_skip_neg a b res hov hlt]
    have hi := hga.1 i (by simp)
    have hj := hgb.1 j (by simp)
    have hni : i.lb ≤ i.ub := hi.1
    have hnj : j.lb ≤ j.ub := hj.1
    simp only [Iv.overlapB, decide_eq_true_eq] at hov
    push_neg at hov
    have hjub : j.ub < i.lb := by omega
    have hlast' : ∀ bl, res.intervals.getLast? = some bl →
        ∀ i' j', (i :: a).head? = some i' → b.head? = some j' →
          bl.ub ≠ mx ∧ bl.ub + 1 < max i'.lb j'.lb := by
      intro bl hbl i' j' hi' hj'
      have h1 := hlast bl hbl i j rfl rfl
      simp at hi'
      subst hi'
      have hgap := gap_head hgb j' (List.mem_of_mem_head? hj')
      exact ⟨h1.1, by have := h1.2; omega⟩
    have ihres := ih hres hga (goodList_cons hgb) hlast'
    refine ⟨ihres.1, fun v => ?_⟩
    rw [ihres.2 v]
    have hsplit : (MemList v (i :: a) ∧ MemList v (j :: b)) ↔
        (MemList v (i :: a) ∧ MemList v b) := by
      rw [show MemList v (j :: b) ↔ Iv.Mem v j ∨ MemList v b from memList_cons]
      constructor
      · rintro ⟨hA, hB | hB⟩
        · exfalso
          rcases memList_cons.mp hA with hAm | ⟨k, hk, hmk⟩
          · have := hAm.1
            have := hB.2
            omega
          · have hgap := gap_head hga k hk
            have := hB.2
            have := hmk.1
            omega
        · exact ⟨hA, hB⟩
      · rintro ⟨hA, hB⟩
        exact ⟨hA, Or.inr hB⟩
    rw [hsplit]
  | case5 a b res h =>
    intro hres hga hgb _
    rw [interLoop_eq_self a b res h]
    refine ⟨hres, fun v => ?_⟩
    have : ¬ (MemList v a ∧ MemList v b) := by
      rintro ⟨⟨i, hi, -⟩, ⟨j, hj, -⟩⟩
      rcases a with _ | ⟨i0, a'⟩
      · cases hi
      · rcases b with _ | ⟨j0, b'⟩
        · cases hj
        · exact h i0 a' j0 b' rfl rfl
    tauto

theorem intersection_spec {mn mx : Int} {s t : IntervalSet}
    (hs : Canonical mn mx s) (ht : Canonical mn mx t) :
    Canonical mn mx (intersection s t) ∧
    (∀ v, MemSet v (intersection s t) ↔ MemSet v s ∧ MemSet v t) := by
  have h := interLoop_spec s.intervals t.intervals emptySet canonical_emptySet hs.1 ht.1
    (by intro bl hbl; simp [emptySet] at hbl)
  refine ⟨h.1, fun v => ?_⟩
  rw [show intersection s t = interLoop s.intervals t.intervals emptySet from rfl]
  rw [h.2 v]
  simp [MemSet, emptySet, memList_nil]

/-- The empty set annihilates intersection. -/
theorem intersection_emptySet_right (A : IntervalSet) :
    intersection A emptySet = emptySet := by
  show interLoop A.intervals [] emptySet = emptySet
  exact interLoop_eq_self _ _ _ (fun i a' j b' _ hb => absurd hb (by simp [emptySet]))

/-! ## Claim C3: intersection laws -/

/-- C3: intersection is commutative on canonical sets, the empty set
annihilates it, and
`{[1..3],[8..8],[10..11]} ∩ {[2..5],[7..8],[12..15]} = {[2..3],[8..8]}`. -/
theorem intersection_laws :
    (∀ (mn mx : Int) (A B : IntervalSet), Canonical mn mx A → Canonical mn mx B →
      intersection A B = intersection B A) ∧
    (∀ A : IntervalSet, intersection A emptySet = emptySet) ∧
    intersection (toIntervalSet mx32 [(1, 3), (8, 8), (10, 11)])
        (toIntervalSet mx32 [(2, 5), (7, 8), (12, 15)]) =
      toIntervalSet mx32 [(2, 3), (8, 8)] := by
  refine ⟨?_, intersection_emptySet_right, ?_⟩
  · intro mn mx A B hA hB
    have h1 := intersection_spec hA hB
    have h2 := intersection_spec hB hA
    refine canonical_ext h1.1 h2.1 (fun v => ?_)
    rw [h1.2 v, h2.2 v]
    tauto
  · have h1 : Canonical mn32 mx32 (toIntervalSet mx32 [(1, 3), (8, 8), (10, 11)]) := by decide
    have h2 : Canonical mn32 mx32 (toIntervalSet mx32 [(2, 5), (7, 8), (12, 15)]) := by decide
    have h3 : Canonical mn32 mx32 (toIntervalSet mx32 [(2, 3), (8, 8)]) := by decide
    have hu := intersection_spec h1 h2
    refine canonical_ext hu.1 h3 (fun v => ?_)
    rw [hu.2 v]
    have e1 : toIntervalSet mx32 [(1, 3), (8, 8), (10, 11)] =
        ⟨[⟨1, 3⟩, ⟨8, 8⟩, ⟨10, 11⟩], 6⟩ := by decide
    have e2 : toIntervalSet mx32 [(2, 5), (7, 8), (12, 15)] =
        ⟨[⟨2, 5⟩, ⟨7, 8⟩, ⟨12, 15⟩], 10⟩ := by decide
    have e3 : toIntervalSet mx32 [(2, 3), (8, 8)] = ⟨[⟨2, 3⟩, ⟨8, 8⟩], 3⟩ := by decide
    rw [e1, e2, e3]
    simp only [MemSet, MemList, List.mem_cons, List.not_mem_nil, or_false,
      exists_eq_or_imp, exists_eq_left, Iv.Mem]
    omega

/-- Witness for C3's commutativity at concrete canonical operands. -/
theorem intersection_laws_witness :
    intersection (toIntervalSet mx32 [(1, 3), (8, 8), (10, 11)])
        (toIntervalSet mx32 [(2, 5), (7, 8), (12, 15)]) =
      intersection (toIntervalSet mx32 [(2, 5), (7, 8), (12, 15)])
        (toIntervalSet mx32 [(1, 3), (8, 8), (10, 11)]) :=
  intersection_laws.1 mn32 mx32 _ _ (by decide) (by decide)

/-! ## Complement -/

theorem mem_in_range {mn mx : Int} {s : IntervalSet} (hs : Canonical mn mx s) {v : Int}
    (hv : MemSet v s) : mn ≤ v ∧ v ≤ mx := by
  obtain ⟨i, hi, hm⟩ := hv
  have hg := hs.1.1 i hi
  exact ⟨by have := hg.2.1; have := hm.1; omega, by have := hg.2.2; have := hm.2; omega⟩

theorem midGaps_append_compTail {mx : Int} : ∀ (rest : List Iv) (first : Iv),
    midGaps first rest ++
      (if ((first :: rest).getLast (by simp)).ub = mx then []
       else [⟨((first :: rest).getLast (by simp)).ub + 1, mx⟩]) =
    compTail mx first rest := by
  intro rest
  induction rest with
  | nil =>
    intro first
    simp [midGaps, compTail]
  | cons c rest' ih =>
    intro first
    show (⟨first.ub + 1, c.lb - 1⟩ :: midGaps c rest') ++ _ = _
    rw [List.cons_append]
    show _ = ⟨first.ub + 1, c.lb - 1⟩ :: compTail mx c rest'
    congr 1
    have hlast : (first :: c :: rest').getLast (by simp) = (c :: rest').getLast (by simp) :=
      List.getLast_cons (by simp)
    rw [hlast]
    exact ih c

theorem compTail_spec {mn mx : Int} : ∀ (rest : List Iv) (prev : Iv),
    GoodList mn mx (prev :: rest) →
    (∀ v, MemList v (compTail mx prev rest) ↔ (prev.ub < v ∧ v ≤ mx ∧ ¬ MemList v rest)) ∧
    GoodIvs mn mx (compTail mx prev rest) ∧
    (compTail mx prev rest).Chain' (Sep mx) ∧
    (∀ g, (compTail mx prev rest).head? = some g → g.lb = prev.ub + 1) := by
  intro rest
  induction rest with
  | nil =>
    intro prev hg
    have hp := hg.1 prev (by simp)
    have hp1 : prev.lb ≤ prev.ub := hp.1
    have hp2 : mn ≤ prev.lb := hp.2.1
    have hp3 : prev.ub ≤ mx := hp.2.2
    by_cases hm : prev.ub = mx
    · rw [show compTail mx prev [] = [] from by simp [compTail, hm]]
      refine ⟨fun v => ?_, by simp [GoodIvs], by simp, by simp⟩
      simp only [memList_nil, false_iff, memList_nil]
      intro hc
      omega
    · rw [show compTail mx prev [] = [⟨prev.ub + 1, mx⟩] from by simp [compTail, hm]]
      refine ⟨fun v => ?_, ?_, by simp, ?_⟩
      · rw [memList_singleton]
        simp only [Iv.Mem, memList_nil, not_false_iff]
        constructor
        · intro h; exact ⟨by omega, by omega, trivial⟩
        · intro h; omega
      · intro g hgmem
        simp at hgmem
        subst hgmem
        exact ⟨show prev.ub + 1 ≤ mx by omega, show mn ≤ prev.ub + 1 by omega,
          show mx ≤ mx from le_refl _⟩
      · intro g hgh
        simp at hgh
        subst hgh
        rfl
  | cons c rest' ih =>
    intro prev hg
    have hgt : GoodList mn mx (c :: rest') := goodList_cons hg
    have hihc := ih c hgt
    have hsep : Sep mx prev c := (List.chain'_cons.mp hg.2).1
    have hc := hg.1 c (by simp)
    have hc1 : c.lb ≤ c.ub := hc.1
    have hc2 : mn ≤ c.lb := hc.2.1
    have hc3 : c.ub ≤ mx := hc.2.2
    have hp := hg.1 prev (by simp)
    have hp1 : prev.lb ≤ prev.ub := hp.1
    have hp2 : mn ≤ prev.lb := hp.2.1
    have hstep : compTail mx prev (c :: rest') = ⟨prev.ub + 1, c.lb - 1⟩ :: compTail mx c rest' :=
      rfl
    rw [hstep]
    refine ⟨fun v => ?_, ?_, ?_, ?_⟩
    · rw [memList_cons, hihc.1 v]
      rw [show MemList v (c :: rest') ↔ Iv.Mem v c ∨ MemList v rest' from memList_cons]
      by_cases hP : MemList v rest'
      · obtain ⟨k, hk, hmk⟩ := hP
        have hgap := gap_head hgt k hk
        have hk1 := hmk.1
        simp only [Iv.Mem]
        constructor
        · rintro (hm | hm)
          · exfalso; omega
          · exact absurd ⟨k, hk, hmk⟩ hm.2.2
        · rintro ⟨h1, h2, h3⟩
          exact absurd (Or.inr ⟨k, hk, hmk⟩) h3
      · simp only [Iv.Mem, hP, or_false, not_false_iff, and_true]
        have hs1 := hsep.2
        omega
    · intro g hgm
      rcases List.mem_cons.mp hgm with rfl | hgm'
      · have hs1 := hsep.2
        exact ⟨show prev.ub + 1 ≤ c.lb - 1 by omega, show mn ≤ prev.ub + 1 by omega,
          show c.lb - 1 ≤ mx by omega⟩
      · exact hihc.2.1 g hgm'
    · rw [List.chain'_cons']
      refine ⟨?_, hihc.2.2.1⟩
      intro g hgh
      have hglb := hihc.2.2.2 g hgh
      have hs1 := hsep.2
      refine ⟨?_, ?_⟩
      · show c.lb - 1 ≠ mx
        omega
      · show (⟨prev.ub + 1, c.lb - 1⟩ : Iv).ub + 1 < g.lb
        rw [hglb]
        dsimp only
        omega
    · intro g hgh
      simp at hgh
      subst hgh
      rfl

/-- The complement of a non-empty set, written as an explicit interval list. -/
theorem complement_eq_list {mn mx : Int} {s : IntervalSet} {first : Iv} {rest : List Iv}
    (h : s.intervals = first :: rest) :
    complement mn mx s =
      ⟨(if first.lb = mn then [] else [⟨mn, first.lb - 1⟩]) ++ compTail mx first rest,
       sumSizes ((if first.lb = mn then [] else [⟨mn, first.lb - 1⟩]) ++
         compTail mx first rest)⟩ := by
  obtain ⟨ints, sz⟩ := s
  simp only at h
  subst h
  show (if ((first :: rest).getLast (by simp)).ub = mx
        then (if first.lb = mn then emptySet else emptySet.push ⟨mn, first.lb - 1⟩).pushAll
              (midGaps first rest)
        else ((if first.lb = mn then emptySet else emptySet.push ⟨mn, first.lb - 1⟩).pushAll
              (midGaps first rest)).push ⟨((first :: rest).getLast (by simp)).ub + 1, mx⟩) = _
  rw [← midGaps_append_compTail rest first]
  by_cases h2 : ((first :: rest).getLast (by simp)).ub = mx <;>
    by_cases h1 : first.lb = mn
  · rw [if_pos h2, if_pos h2, if_pos h1, if_pos h1, pushAll_eq]
    simp [emptySet, sumSizes_append, sumSizes_nil]
  · rw [if_pos h2, if_pos h2, if_neg h1, if_neg h1, pushAll_eq]
    simp [emptySet, push, sumSizes_append, sumSizes_cons, sumSizes_nil]
  · rw [if_neg h2, if_neg h2, if_pos h1, if_pos h1, pushAll_eq]
    simp [emptySet, push, sumSizes_append, sumSizes_cons, sumSizes_nil]
  · rw [if_neg h2, if_neg h2, if_neg h1, if_neg h1, pushAll_eq]
    simp [emptySet, push, sumSizes_append, sumSizes_cons, sumSizes_nil]
    omega

/-- The complement of a canonical set is canonical and contains exactly the
in-range values missing from it. -/
theorem complement_spec {mn mx : Int} (hmn : mn ≤ mx) {s : IntervalSet}
    (hs : Canonical mn mx s) :
    Canonical mn mx (complement mn mx s) ∧
    (∀ v, MemSet v (complement mn mx s) ↔ (mn ≤ v ∧ v ≤ mx ∧ ¬ MemSet v s)) := by
  rcases hc : s.intervals with _ | ⟨first, rest⟩
  · have hsz : s.size = 0 := by
      have h0 := hs.2
      rw [hc] at h0
      simpa [sumSizes] using h0
    have hseq : s = emptySet := by
      cases s
      simp only at hc hsz
      subst hc
      subst hsz
      rfl
    subst hseq
    have heq : complement mn mx emptySet = wholeSet mn mx := by
      unfold complement emptySet wholeSet fromInterval push
      simp [Iv.whole]
    rw [heq]
    constructor
    · refine ⟨⟨?_, by simp [wholeSet, fromInterval]⟩, ?_⟩
      · intro i hi
        simp [wholeSet, fromInterval] at hi
        subst hi
        exact ⟨hmn, le_refl _, le_refl _⟩
      · simp [wholeSet, fromInterval, sumSizes]
    · intro v
      show MemList v [Iv.whole mn mx] ↔ _
      rw [memList_singleton]
      simp only [Iv.Mem, Iv.whole, MemSet, emptySet, memList_nil, not_false_iff, and_true]
  · have hgl : GoodList mn mx (first :: rest) := by rw [← hc]; exact hs.1
    have hct := compTail_spec rest first hgl
    have hfirst := hgl.1 first (by simp)
    have hf1 : first.lb ≤ first.ub := hfirst.1
    have hf2 : mn ≤ first.lb := hfirst.2.1
    have hf3 : first.ub ≤ mx := hfirst.2.2
    rw [complement_eq_list hc]
    have hgood : GoodIvs mn mx ((if first.lb = mn then [] else [⟨mn, first.lb - 1⟩]) ++
        compTail mx first rest) := by
      intro g hgm
      rcases List.mem_append.mp hgm with hgm | hgm
      · by_cases h1 : first.lb = mn
        · rw [if_pos h1] at hgm; cases hgm
        · rw [if_neg h1] at hgm
          simp at hgm
          subst hgm
          refine ⟨?_, ?_, ?_⟩
          · show mn ≤ first.lb - 1
            omega
          · show mn ≤ mn
            omega
          · show first.lb - 1 ≤ mx
            omega
      · exact hct.2.1 g hgm
    have hchain : ((if first.lb = mn then [] else [(⟨mn, first.lb - 1⟩ : Iv)]) ++
        compTail mx first rest).Chain' (Sep mx) := by
      refine List.chain'_append.mpr ⟨?_, hct.2.2.1, ?_⟩
      · by_cases h1 : first.lb = mn <;> simp [h1]
      · intro p hp g hg
        by_cases h1 : first.lb = mn
        · rw [if_pos h1] at hp; simp at hp
        · rw [if_neg h1] at hp
          simp at hp
          subst hp
          have hglb := hct.2.2.2 g hg
          refine ⟨?_, ?_⟩
          · show first.lb - 1 ≠ mx
            omega
          · show (⟨mn, first.lb - 1⟩ : Iv).ub + 1 < g.lb
            rw [hglb]
            dsimp only
            omega
    refine ⟨⟨⟨hgood, hchain⟩, rfl⟩, fun v => ?_⟩
    show MemList v _ ↔ _
    rw [memList_append, hct.1 v]
    rw [show MemSet v s ↔ MemList v (first :: rest) from by rw [MemSet, hc]]
    rw [show MemList v (first :: rest) ↔ Iv.Mem v first ∨ MemList v rest from memList_cons]
    by_cases hP : MemList v rest
    · obtain ⟨k, hk, hmk⟩ := hP
      have hgap := gap_head hgl k hk
      have hk1 := hmk.1
      constructor
      · rintro (hm | hm)
        · exfalso
          by_cases h1 : first.lb = mn
          · rw [if_pos h1] at hm; exact absurd hm memList_nil
          · rw [if_neg h1] at hm
            rw [memList_singleton] at hm
            have := hm.2
            simp only [Iv.Mem] at hm
            omega
        · exact absurd ⟨k, hk, hmk⟩ hm.2.2
      · rintro ⟨h1, h2, h3⟩
        exact absurd (Or.inr ⟨k, hk, hmk⟩) h3
    · have hleft : MemList v (if first.lb = mn then [] else [⟨mn, first.lb - 1⟩]) ↔
          (first.lb ≠ mn ∧ mn ≤ v ∧ v ≤ first.lb - 1) := by
        by_cases h1 : first.lb = mn
        · simp [h1, memList_nil]
        · simp only [if_neg h1, memList_singleton, Iv.Mem]
          tauto
      rw [hleft]
      simp only [Iv.Mem, hP, or_false, not_false_iff, and_true]
      omega

/-! ## Claim C4: complement involution -/

/-- C4: complement is involutive on canonical sets; the complement of the
empty set is the whole representable range and vice versa. -/
theorem complement_involution :
    (∀ (mn mx : Int) (A : IntervalSet), mn ≤ mx → Canonical mn mx A →
      complement mn mx (complement mn mx A) = A) ∧
    (∀ mn mx : Int, complement mn mx emptySet = wholeSet mn mx) ∧
    (∀ mn mx : Int, complement mn mx (wholeSet mn mx) = emptySet) := by
  refine ⟨?_, ?_, ?_⟩
  · intro mn mx A hmn hA
    have h1 := complement_spec hmn hA
    have h2 := complement_spec hmn h1.1
    refine canonical_ext h2.1 hA (fun v => ?_)
    rw [h2.2 v]
    constructor
    · rintro ⟨hv1, hv2, hv3⟩
      by_contra hmem
      exact hv3 ((h1.2 v).mpr ⟨hv1, hv2, hmem⟩)
    · intro hmem
      have hr := mem_in_range hA hmem
      refine ⟨hr.1, hr.2, fun hcm => ?_⟩
      exact ((h1.2 v).mp hcm).2.2 hmem
  · intro mn mx
    show complement mn mx emptySet = wholeSet mn mx
    unfold complement emptySet wholeSet fromInterval push
    simp [Iv.whole]
  · intro mn mx
    unfold complement wholeSet fromInterval
    simp [Iv.whole, pushAll_eq, emptySet, midGaps, sumSizes]

/-- Witness for C4's involution at a concrete canonical set over the `i32`
sentinels. -/
theorem complement_involution_witness :
    complement mn32 mx32 (complement mn32 mx32 (toIntervalSet mx32 [(2, 5), (8, 10)])) =
      toIntervalSet mx32 [(2, 5), (8, 10)] :=
  complement_involution.1 mn32 mx32 _ (by decide) (by decide)

/-! ## Difference and symmetric difference -/

theorem difference_spec {mn mx : Int} (hmn : mn ≤ mx) {s t : IntervalSet}
    (hs : Canonical mn mx s) (ht : Canonical mn mx t) :
    Canonical mn mx (difference mn mx s t) ∧
    (∀ v, MemSet v (difference mn mx s t) ↔ MemSet v s ∧ ¬ MemSet v t) := by
  have hc := complement_spec hmn ht
  have hi := intersection_spec hs hc.1
  refine ⟨hi.1, fun v => ?_⟩
  rw [show difference mn mx s t = intersection s (complement mn mx t) from rfl, hi.2 v, hc.2 v]
  constructor
  · rintro ⟨h1, _, _, h4⟩
    exact ⟨h1, h4⟩
  · rintro ⟨h1, h2⟩
    have hr := mem_in_range hs h1
    exact ⟨h1, hr.1, hr.2, h2⟩

/-! ## Claim C5: difference and symmetric difference definitions -/

/-- C5: `A − B = A ∩ complement(B)` and
`A Δ B = (A ∪ B) − (A ∩ B)` hold definitionally for all sets, and on canonical
sets `A Δ B` also equals `(A − B) ∪ (B − A)`. -/
theorem difference_symmetricDifference_laws :
    (∀ (mn mx : Int) (A B : IntervalSet),
      difference mn mx A B = intersection A (complement mn mx B)) ∧
    (∀ (mn mx : Int) (A B : IntervalSet),
      symmetricDifference mn mx A B =
        difference mn mx (union mx A B) (intersection A B)) ∧
    (∀ (mn mx : Int) (A B : IntervalSet), mn ≤ mx →
      Canonical mn mx A → Canonical mn mx B →
      symmetricDifference mn mx A B =
        union mx (difference mn mx A B) (difference mn mx B A)) := by
  refine ⟨fun _ _ _ _ => rfl, fun _ _ _ _ => rfl, ?_⟩
  intro mn mx A B hmn hA hB
  have hu := union_spec hA hB
  have hi := intersection_spec hA hB
  have hlhs := difference_spec hmn hu.1 hi.1
  have hd1 := difference_spec hmn hA hB
  have hd2 := difference_spec hmn hB hA
  have hrhs := union_spec hd1.1 hd2.1
  refine canonical_ext hlhs.1 hrhs.1 (fun v => ?_)
  rw [show symmetricDifference mn mx A B =
    difference mn mx (union mx A B) (intersection A B) from rfl]
  rw [hlhs.2 v, hrhs.2 v, hd1.2 v, hd2.2 v, hu.2 v, hi.2 v]
  tauto

/-- Witness for C5's union-of-differences form at concrete canonical sets. -/
theorem difference_symmetricDifference_laws_witness :
    symmetricDifference mn32 mx32 (toIntervalSet mx32 [(1, 3), (8, 8), (10, 11)])
        (toIntervalSet mx32 [(2, 5), (7, 8), (12, 15)]) =
      union mx32
        (difference mn32 mx32 (toIntervalSet mx32 [(1, 3), (8, 8), (10, 11)])
          (toIntervalSet mx32 [(2, 5), (7, 8), (12, 15)]))
        (difference mn32 mx32 (toIntervalSet mx32 [(2, 5), (7, 8), (12, 15)])
          (toIntervalSet mx32 [(1, 3), (8, 8), (10, 11)])) :=
  difference_symmetricDifference_laws.2.2 mn32 mx32 _ _ (by decide) (by decide) (by decide)

/-! ## Claim C9: scalar multiplication special cases (corrected) -/

/-- C9 counterexample: multiplying the *empty* set by the scalar `0` yields
the empty set, not the singleton `{0}` — the claim fails as stated for the
empty set. -/
theorem mulScalar_zero_empty_counterexample :
    mulScalar emptySet 0 = emptySet ∧ ¬ mulScalar emptySet 0 = singletonSet 0 := by
  constructor
  · rfl
  · decide

/-- C9 (amended): multiplying a *non-empty* set by the scalar `0` yields the
singleton `{0}`, and multiplying a canonical set by the scalar `1` yields the
set itself. -/
theorem mulScalar_special_cases :
    (∀ s : IntervalSet, s.intervals ≠ [] → mulScalar s 0 = singletonSet 0) ∧
    (∀ (mn mx : Int) (s : IntervalSet), Canonical mn mx s → mulScalar s 1 = s) := by
  constructor
  · intro s hne
    unfold mulScalar
    rw [if_neg (by simpa using hne), if_pos rfl]
  · intro mn mx s hs
    unfold mulScalar
    rcases hc : s.intervals with _ | ⟨i, rest⟩
    · have hsz : s.size = 0 := by
        have h0 := hs.2
        rw [hc] at h0
        simpa [sumSizes] using h0
      rw [if_pos (by simp [hc])]
      cases s
      simp only at hc hsz
      subst hc
      subst hsz
      rfl
    · rw [if_neg (by simp [hc]), if_neg (by decide), if_pos rfl]

/-- Witness for C9's amended statement at concrete inputs. -/
theorem mulScalar_special_cases_witness :
    mulScalar (toIntervalSet mx32 [(1, 2), (5, 6)]) 0 = singletonSet 0 ∧
    mulScalar (toIntervalSet mx32 [(1, 2), (5, 6)]) 1 = toIntervalSet mx32 [(1, 2), (5, 6)] :=
  ⟨mulScalar_special_cases.1 _ (by decide),
   mulScalar_special_cases.2 mn32 mx32 _ (by decide)⟩

/-! ## Claim C1: the canonical-form invariant (code bug) -/

/-- C1: the canonical-form invariant is *violated* by scalar multiplication
with a negative constant: `{[1..1],[3..3]} * (-1)` maps the intervals in place
(`map` pushes them in their original order), producing the interval list
`[[-1..-1], [-3..-3]]`, which breaks the strict ascending order required by
`Canonical` (and would fire `push`'s debug assertion in a debug build). -/
theorem mulScalar_neg_breaks_canonical :
    Canonical mn32 mx32 (toIntervalSet mx32 [(1, 1), (3, 3)]) ∧
    mulScalar (toIntervalSet mx32 [(1, 1), (3, 3)]) (-1) =
      ⟨[⟨-1, -1⟩, ⟨-3, -3⟩], 2⟩ ∧
    ¬ Canonical mn32 mx32 (mulScalar (toIntervalSet mx32 [(1, 1), (3, 3)]) (-1)) := by
  refine ⟨by decide, by decide, by decide⟩

/-! ## Indexed access lemmas -/

theorem idxIv_eq_getElem {l : List Iv} {k : Int} (h0 : 0 ≤ k) (hk : k < (l.length : Int)) :
    idxIv l k = l[k.toNat] := by
  unfold idxIv
  exact List.getD_eq_getElem l Iv.emptyIv (by omega)

theorem idxIv_mem {l : List Iv} {k : Int} (h0 : 0 ≤ k) (hk : k < (l.length : Int)) :
    idxIv l k ∈ l := by
  rw [idxIv_eq_getElem h0 hk]
  exact List.getElem_mem _

theorem idx_gap {mn mx : Int} {l : List Iv} (hg : GoodList mn mx l) {p q : Int}
    (h0 : 0 ≤ p) (hpq : p < q) (hq : q < (l.length : Int)) :
    (idxIv l p).ub + 1 < (idxIv l q).lb := by
  have hp := goodList_pairwise hg
  rw [List.pairwise_iff_getElem] at hp
  rw [idxIv_eq_getElem h0 (by omega), idxIv_eq_getElem (by omega) hq]
  exact hp p.toNat q.toNat (by omega) (by omega) (by omega)

theorem memList_iff_idx {l : List Iv} {v : Int} :
    MemList v l ↔ ∃ k : Int, 0 ≤ k ∧ k < (l.length : Int) ∧ Iv.Mem v (idxIv l k) := by
  constructor
  · intro ⟨i, hi, hm⟩
    obtain ⟨n, hn, hni⟩ := List.getElem_of_mem hi
    refine ⟨(n : Int), by omega, by omega, ?_⟩
    rw [idxIv_eq_getElem (by omega) (by omega)]
    simpa [Int.toNat_natCast, hni] using hm
  · intro ⟨k, h0, hk, hm⟩
    exact ⟨idxIv l k, idxIv_mem h0 hk, hm⟩

/-! ## The binary-search locator -/

theorem findBetween_spec (l : List Iv) (v : Int) : ∀ (left right : Int),
    0 < (l.length : Int) →
    0 ≤ left → right ≤ (l.length : Int) - 1 → left ≤ right + 1 →
    ((left = 0 ∧ (idxIv l 0).lb ≤ v) ∨ (0 < left ∧ (idxIv l (left - 1)).ub < v)) →
    ((right = (l.length : Int) - 1 ∧ v ≤ (idxIv l ((l.length : Int) - 1)).ub) ∨
     (right < (l.length : Int) - 1 ∧ v < (idxIv l (right + 1)).lb)) →
    (∃ k, findBetween l v left right = (k, k) ∧ left ≤ k ∧ k ≤ right ∧
      Iv.Mem v (idxIv l k)) ∨
    (∃ k, findBetween l v left right = (k, k + 1) ∧ 0 ≤ k ∧
      k + 1 ≤ (l.length : Int) - 1 ∧ left - 1 ≤ k ∧ k ≤ right ∧
      (idxIv l k).ub < v ∧ v < (idxIv l (k + 1)).lb) := by
  intro left right
  induction left, right using findBetween.induct l v with
  | case1 left right hle mid m hv ih =>
    intro hlen h0 hr hc hD hE
    have hdiv1 : (0 : Int) ≤ (right - left) / 2 := Int.ediv_nonneg (by omega) (by omega)
    have hdiv2 : (right - left) / 2 ≤ right - left := Int.ediv_le_self _ (by omega)
    rw [show findBetween l v left right =
      findBetween l v left (left + (right - left) / 2 - 1) from by
        rw [findBetween]
        simp only [dif_pos hle]
        rw [if_pos hv]]
    have := ih hlen h0 (by omega) (by omega) hD (Or.inr ⟨by omega, by simpa using hv⟩)
    rcases this with ⟨k, hk⟩ | ⟨k, hk⟩
    · exact Or.inl ⟨k, hk.1, hk.2.1, by omega, hk.2.2.2⟩
    · exact Or.inr ⟨k, hk.1, hk.2.1, hk.2.2.1, by omega, by omega, hk.2.2.2.2.2⟩
  | case2 left right hle mid m hv1 hv2 ih =>
    intro hlen h0 hr hc hD hE
    have hdiv1 : (0 : Int) ≤ (right - left) / 2 := Int.ediv_nonneg (by omega) (by omega)
    have hdiv2 : (right - left) / 2 ≤ right - left := Int.ediv_le_self _ (by omega)
    rw [show findBetween l v left right =
      findBetween l v (left + (right - left) / 2 + 1) right from by
        rw [findBetween]
        simp only [dif_pos hle]
        rw [if_neg hv1, if_pos hv2]]
    have := ih hlen (by omega) hr (by omega)
      (Or.inr ⟨by omega, by simpa using hv2⟩) hE
    rcases this with ⟨k, hk⟩ | ⟨k, hk⟩
    · exact Or.inl ⟨k, hk.1, by omega, by omega, hk.2.2.2⟩
    · exact Or.inr ⟨k, hk.1, hk.2.1, hk.2.2.1, by omega, by omega, hk.2.2.2.2.2⟩
  | case3 left right hle mid m hv1 hv2 =>
    intro hlen h0 hr hc hD hE
    rw [show findBetween l v left right =
      (left + (right - left) / 2, left + (right - left) / 2) from by
        rw [findBetween]
        simp only [dif_pos hle]
        rw [if_neg hv1, if_neg hv2]]
    have hdiv1 : (0 : Int) ≤ (right - left) / 2 := Int.ediv_nonneg (by omega) (by omega)
    have hdiv2 : (right - left) / 2 ≤ right - left := Int.ediv_le_self _ (by omega)
    have hm1 : m.lb = (idxIv l (left + (right - left) / 2)).lb := rfl
    have hm2 : m.ub = (idxIv l (left + (right - left) / 2)).ub := rfl
    exact Or.inl ⟨_, rfl, by omega, by omega, ⟨by omega, by omega⟩⟩
  | case4 left right hle =>
    intro hlen h0 hr hc hD hE
    rw [show findBetween l v left right = (right, left) from by
      rw [findBetween]
      simp only [dif_neg hle]]
    have hc' : left = right + 1 := by omega
    rcases hD with ⟨hD1, hD2⟩ | ⟨hD1, hD2⟩
    · -- left = 0, so right = -1; but the right invariant forbids it
      exfalso
      rcases hE with ⟨hE1, hE2⟩ | ⟨hE1, hE2⟩
      · omega
      · rw [show right + 1 = (0 : Int) from by omega] at hE2
        omega
    · rcases hE with ⟨hE1, hE2⟩ | ⟨hE1, hE2⟩
      · exfalso
        rw [show left - 1 = right from by omega] at hD2
        rw [hE1] at hD2
        omega
      · right
        refine ⟨right, ?_, by omega, by omega, by omega, by omega, ?_, ?_⟩
        · rw [hc']
        · rw [show right = left - 1 from by omega]
          exact hD2
        · exact hE2

theorem span_eq_of_cons {ints : List Iv} {sz : Nat} {f : Iv} {rest : List Iv}
    (h : ints = f :: rest) :
    span ⟨ints, sz⟩ = ⟨f.lb, ((f :: rest).getLast (by simp)).ub⟩ := by
  subst h
  rfl

theorem getLast_eq_idx {l : List Iv} (h : l ≠ []) :
    l.getLast h = idxIv l ((l.length : Int) - 1) := by
  have hlen : 0 < l.length := List.length_pos.mpr h
  rw [idxIv_eq_getElem (by omega) (by omega)]
  rw [List.getLast_eq_getElem]
  congr 1
  omega

theorem span_components {s : IntervalSet} (hne : s.intervals ≠ []) :
    (span s).lb = (idxIv s.intervals 0).lb ∧
    (span s).ub = (idxIv s.intervals ((s.intervals.length : Int) - 1)).ub := by
  obtain ⟨ints, sz⟩ := s
  simp only at hne
  rcases hc : ints with _ | ⟨f, rest⟩
  · exact absurd hc hne
  · subst hc
    rw [span_eq_of_cons rfl]
    constructor
    · show f.lb = (idxIv (f :: rest) 0).lb
      rfl
    · show ((f :: rest).getLast (by simp)).ub = _
      rw [getLast_eq_idx (by simp)]

theorem idx_good {mn mx : Int} {l : List Iv} (hg : GoodList mn mx l) {k : Int}
    (h0 : 0 ≤ k) (hk : k < (l.length : Int)) :
    (idxIv l k).Nonempty ∧ mn ≤ (idxIv l k).lb ∧ (idxIv l k).ub ≤ mx :=
  hg.1 _ (idxIv_mem h0 hk)

/-! ## Claim C7: the locator -/

/-- C7: on a non-empty canonical set, `find_interval` returns `None` exactly
when the value is outside the span; if the value lies in a stored interval of
index `k` it returns `(k, k)`; if the value lies in the gap between the stored
intervals `k` and `k+1` it returns `(k, k+1)`. -/
theorem findInterval_locator (mn mx : Int) (s : IntervalSet) (hs : Canonical mn mx s)
    (hne : s.intervals ≠ []) (v : Int) :
    (findInterval s v = none ↔ (v < (span s).lb ∨ (span s).ub < v)) ∧
    (∀ k : Int, 0 ≤ k → k < (s.intervals.length : Int) → Iv.Mem v (idxIv s.intervals k) →
      findInterval s v = some (k, k)) ∧
    (∀ k : Int, 0 ≤ k → k + 1 < (s.intervals.length : Int) →
      (idxIv s.intervals k).ub < v → v < (idxIv s.intervals (k + 1)).lb →
      findInterval s v = some (k, k + 1)) := by
  have hlen : 0 < (s.intervals.length : Int) := by
    have := List.length_pos.mpr hne
    omega
  have hsp := span_components hne
  have hg := hs.1
  -- monotonicity helpers
  have hlbmono : ∀ p q : Int, 0 ≤ p → p ≤ q → q < (s.intervals.length : Int) →
      (idxIv s.intervals p).lb ≤ (idxIv s.intervals q).lb := by
    intro p q hp hpq hq
    rcases eq_or_lt_of_le hpq with rfl | hlt
    · exact le_refl _
    · have hgap := idx_gap hg hp hlt hq
      have hnp := (idx_good hg hp (by omega)).1
      simp only [Iv.Nonempty] at hnp
      omega
  have hubmono : ∀ p q : Int, 0 ≤ p → p ≤ q → q < (s.intervals.length : Int) →
      (idxIv s.intervals p).ub ≤ (idxIv s.intervals q).ub := by
    intro p q hp hpq hq
    rcases eq_or_lt_of_le hpq with rfl | hlt
    · exact le_refl _
    · have hgap := idx_gap hg hp hlt hq
      have hnq := (idx_good hg (by omega) hq).1
      simp only [Iv.Nonempty] at hnq
      omega
  refine ⟨?_, ?_, ?_⟩
  · unfold findInterval
    split
    · rename_i hcont
      simp only [Iv.containsB, decide_eq_true_eq] at hcont
      simp only [reduceCtorEq, false_iff]
      omega
    · rename_i hcont
      simp only [Iv.containsB, decide_eq_true_eq, not_and_or, not_le] at hcont
      simp only [true_iff]
      omega
  · intro k h0 hk hm
    have hinspan : (span s).containsB v = true := by
      simp only [Iv.containsB, decide_eq_true_eq]
      have h1 := hlbmono 0 k (le_refl _) h0 hk
      have h2 := hubmono k ((s.intervals.length : Int) - 1) h0 (by omega) (by omega)
      have := hm.1
      have := hm.2
      constructor <;> omega
    rw [show findInterval s v =
      some (findBetween s.intervals v 0 ((s.intervals.length : Int) - 1)) from by
        unfold findInterval
        rw [if_pos hinspan]]
    have hfb := findBetween_spec s.intervals v 0 ((s.intervals.length : Int) - 1) hlen
      (le_refl _) (le_refl _) (by omega)
      (Or.inl ⟨rfl, by have := hlbmono 0 k (le_refl _) h0 hk; have := hm.1; omega⟩)
      (Or.inl ⟨rfl, by
        have := hubmono k ((s.intervals.length : Int) - 1) h0 (by omega) (by omega)
        have := hm.2
        omega⟩)
    rcases hfb with ⟨y, hy, _, hy2, hym⟩ | ⟨y, hy, hy0, hy1, _, _, hyu, hyl⟩
    · -- the found index is the unique interval containing `v`
      have hyk : y = k := by
        by_contra hne'
        rcases lt_or_gt_of_ne hne' with hlt | hgt
        · have hgap := idx_gap hg (by omega) hlt hk
          have := hym.2
          have := hm.1
          omega
        · have hgap := idx_gap hg h0 hgt (by omega)
          have := hym.1
          have := hm.2
          omega
      rw [hy, hyk]
    · exfalso
      rcases le_or_lt k y with hky | hky
      · have := hubmono k y h0 hky (by omega)
        have := hm.2
        omega
      · have := hlbmono (y + 1) k (by omega) (by omega) hk
        have := hm.1
        omega
  · intro k h0 hk hub hlb
    have hnk := (idx_good hg h0 (by omega)).1
    have hnk1 := (idx_good hg (by omega) (by omega : k + 1 < (s.intervals.length : Int))).1
    simp only [Iv.Nonempty] at hnk hnk1
    have hinspan : (span s).containsB v = true := by
      simp only [Iv.containsB, decide_eq_true_eq]
      have h1 := hlbmono 0 k (le_refl _) h0 (by omega)
      have h2 := hubmono (k + 1) ((s.intervals.length : Int) - 1) (by omega) (by omega)
        (by omega)
      constructor <;> omega
    rw [show findInterval s v =
      some (findBetween s.intervals v 0 ((s.intervals.length : Int) - 1)) from by
        unfold findInterval
        rw [if_pos hinspan]]
    have hfb := findBetween_spec s.intervals v 0 ((s.intervals.length : Int) - 1) hlen
      (le_refl _) (le_refl _) (by omega)
      (Or.inl ⟨rfl, by have := hlbmono 0 k (le_refl _) h0 (by omega); omega⟩)
      (Or.inl ⟨rfl, by
        have := hubmono (k + 1) ((s.intervals.length : Int) - 1) (by omega) (by omega)
          (by omega)
        omega⟩)
    rcases hfb with ⟨y, hy, _, hy2, hym⟩ | ⟨y, hy, hy0, hy1, _, _, hyu, hyl⟩
    · exfalso
      rcases le_or_lt y k with hyk | hyk
      · have := hubmono y k (by omega) hyk (by omega)
        have := hym.2
        omega
      · have := hlbmono (k + 1) y (by omega) (by omega) (by omega)
        have := hym.1
        omega
    · have hyk : y = k := by
        by_contra hne'
        rcases lt_or_gt_of_ne hne' with hlt | hgt
        · have := hlbmono (y + 1) k (by omega) (by omega) (by omega)
          omega
        · have := hubmono (k + 1) y (by omega) (by omega) (by omega)
          omega
      rw [hy, hyk]

/-- Witness for C7 at a concrete canonical set: a contained value, a gap
value, and an outside value. -/
theorem findInterval_locator_witness :
    findInterval (toIntervalSet mx32 [(1, 2), (7, 9)]) 8 = some (1, 1) ∧
    findInterval (toIntervalSet mx32 [(1, 2), (7, 9)]) 5 = some (0, 1) ∧
    findInterval (toIntervalSet mx32 [(1, 2), (7, 9)]) 0 = none := by
  refine ⟨?_, ?_, ?_⟩
  · exact (findInterval_locator mn32 mx32 _ (by decide) (by decide) 8).2.1 1
      (by decide) (by decide) (by decide)
  · exact (findInterval_locator mn32 mx32 _ (by decide) (by decide) 5).2.2 0
      (by decide) (by decide) (by decide) (by decide)
  · exact (findInterval_locator mn32 mx32 _ (by decide) (by decide) 0).1.mpr
      (by left; decide)

/-! ## Shrink -/

theorem sep_idx {mn mx : Int} {l : List Iv} (hg : GoodList mn mx l) {k : Int} (h0 : 0 ≤ k)
    (hk : k + 1 < (l.length : Int)) : Sep mx (idxIv l k) (idxIv l (k + 1)) := by
  have hc := hg.2
  rw [List.chain'_iff_get] at hc
  have := hc k.toNat (by omega)
  rw [idxIv_eq_getElem h0 (by omega), idxIv_eq_getElem (by omega) hk]
  have h1 : (k + 1).toNat = k.toNat + 1 := by omega
  simp only [List.get_eq_getElem] at this
  rw [show l[(k+1).toNat] = l[k.toNat + 1] from by congr 1]
  exact this

theorem idxIv_drop {l : List Iv} {n : Nat} {j : Int} (h0 : 0 ≤ j)
    (hj : n + j.toNat < l.length) :
    idxIv (l.drop n) j = idxIv l ((n : Int) + j) := by
  have hdl := List.length_drop n l
  rw [idxIv_eq_getElem h0 (by omega), idxIv_eq_getElem (by omega) (by omega)]
  have h1 : (l.drop n)[j.toNat] = l[n + j.toNat] :=
    List.getElem_drop _
  rw [h1]
  congr 1
  omega

theorem idxIv_take {l : List Iv} {n : Nat} {j : Int} (h0 : 0 ≤ j)
    (hjn : j < (n : Int)) (hj : j.toNat < l.length) :
    idxIv (l.take n) j = idxIv l j := by
  have htl := List.length_take n l
  rw [idxIv_eq_getElem h0 (by omega), idxIv_eq_getElem h0 (by omega)]
  exact List.getElem_take _

theorem memList_drop_iff {l : List Iv} {n : Nat} {v : Int} :
    MemList v (l.drop n) ↔
      ∃ m : Int, (n : Int) ≤ m ∧ m < (l.length : Int) ∧ Iv.Mem v (idxIv l m) := by
  have hdl := List.length_drop n l
  rw [memList_iff_idx]
  constructor
  · intro ⟨k, h0, hk, hm⟩
    refine ⟨(n : Int) + k, by omega, by omega, ?_⟩
    rw [← idxIv_drop h0 (by omega)]
    exact hm
  · intro ⟨m, h0, hm', hm⟩
    refine ⟨m - n, by omega, by omega, ?_⟩
    rw [idxIv_drop (by omega) (by omega)]
    rw [show (n : Int) + (m - (n : Int)) = m from by omega]
    exact hm

theorem memList_take_iff {l : List Iv} {n : Nat} {v : Int} :
    MemList v (l.take n) ↔
      ∃ m : Int, 0 ≤ m ∧ m < (n : Int) ∧ m < (l.length : Int) ∧ Iv.Mem v (idxIv l m) := by
  have htl := List.length_take n l
  rw [memList_iff_idx]
  constructor
  · intro ⟨k, h0, hk, hm⟩
    rw [htl] at hk
    refine ⟨k, h0, by omega, by omega, ?_⟩
    have h2 : idxIv (l.take n) k = idxIv l k := idxIv_take h0 (by omega) (by omega)
    rw [← h2]
    exact hm
  · intro ⟨m, h0, hmn, hml, hm⟩
    refine ⟨m, h0, by omega, ?_⟩
    rw [idxIv_take h0 (by omega) (by omega)]
    exact hm

theorem chain'_drop_of_chain' {l : List Iv} {mx : Int} (h : l.Chain' (Sep mx)) (n : Nat) :
    (l.drop n).Chain' (Sep mx) := by
  rw [← List.take_append_drop n l] at h
  exact (List.chain'_append.mp h).2.1

theorem chain'_take_of_chain' {l : List Iv} {mx : Int} (h : l.Chain' (Sep mx)) (n : Nat) :
    (l.take n).Chain' (Sep mx) := by
  rw [← List.take_append_drop n l] at h
  exact (List.chain'_append.mp h).1

theorem head?_drop_eq {l : List Iv} {n : Nat} (hn : n < l.length) :
    (l.drop n).head? = some (idxIv l (n : Int)) := by
  rw [List.head?_drop, List.getElem?_eq_getElem hn]
  congr 1
  rw [idxIv_eq_getElem (by omega) (by omega)]
  congr 1

theorem getLast?_take_eq {l : List Iv} {n : Nat} (hn : 0 < n) (hl : n ≤ l.length) :
    (l.take n).getLast? = some (idxIv l ((n : Int) - 1)) := by
  have htl := List.length_take n l
  have hne : l.take n ≠ [] := by
    intro hc
    have h0 := congrArg List.length hc
    rw [htl] at h0
    simp only [List.length_nil] at h0
    omega
  rw [List.getLast?_eq_getLast _ hne, List.getLast_eq_getElem]
  congr 1
  have h1 : (l.take n)[(l.take n).length - 1] = l[(l.take n).length - 1] :=
    List.getElem_take _
  rw [h1]
  rw [idxIv_eq_getElem (by omega) (by omega)]
  congr 1
  rw [htl]
  omega

theorem idx_lb_mono {mn mx : Int} {l : List Iv} (hg : GoodList mn mx l) {p q : Int}
    (hp : 0 ≤ p) (hpq : p ≤ q) (hq : q < (l.length : Int)) :
    (idxIv l p).lb ≤ (idxIv l q).lb := by
  rcases eq_or_lt_of_le hpq with rfl | hlt
  · exact le_refl _
  · have hgap := idx_gap hg hp hlt hq
    have hnp := (idx_good hg hp (by omega)).1
    simp only [Iv.Nonempty] at hnp
    omega

theorem idx_ub_mono {mn mx : Int} {l : List Iv} (hg : GoodList mn mx l) {p q : Int}
    (hp : 0 ≤ p) (hpq : p ≤ q) (hq : q < (l.length : Int)) :
    (idxIv l p).ub ≤ (idxIv l q).ub := by
  rcases eq_or_lt_of_le hpq with rfl | hlt
  · exact le_refl _
  · have hgap := idx_gap hg hp hlt hq
    have hnq := (idx_good hg (by omega) hq).1
    simp only [Iv.Nonempty] at hnq
    omega

theorem findInterval_empty {s : IntervalSet} (h : s.intervals = []) (b : Int) :
    findInterval s b = none := by
  obtain ⟨ints, sz⟩ := s
  simp only at h
  subst h
  unfold findInterval
  rw [if_neg]
  show ¬ (Iv.emptyIv.containsB b = true)
  simp [Iv.containsB, Iv.emptyIv]
  omega

theorem shrinkLeft_some {s : IntervalSet} {b x y : Int}
    (h : findInterval s b = some (x, y)) :
    shrinkLeft s b =
      (if b ≤ (idxIv s.intervals x).ub then emptySet.push ⟨b, (idxIv s.intervals x).ub⟩
       else emptySet).pushAll (s.intervals.drop (x.toNat + 1)) := by
  unfold shrinkLeft
  rw [h]

theorem shrinkLeft_none {s : IntervalSet} {b : Int} (h : findInterval s b = none) :
    shrinkLeft s b =
      (if s.intervals.isEmpty then emptySet
       else if (span s).ub < b then emptySet else s) := by
  unfold shrinkLeft
  rw [h]

theorem shrinkRight_some {s : IntervalSet} {b x y : Int}
    (h : findInterval s b = some (x, y)) :
    shrinkRight s b =
      (if (idxIv s.intervals y).lb ≤ b then
        (emptySet.pushAll (s.intervals.take y.toNat)).push ⟨(idxIv s.intervals y).lb, b⟩
       else emptySet.pushAll (s.intervals.take y.toNat)) := by
  unfold shrinkRight
  rw [h]

theorem shrinkRight_none {s : IntervalSet} {b : Int} (h : findInterval s b = none) :
    shrinkRight s b =
      (if s.intervals.isEmpty then emptySet
       else if b < (span s).lb then emptySet else s) := by
  unfold shrinkRight
  rw [h]

/-- Characterization of a successful `find_interval` call on a canonical
non-empty set: the pair is either a containing index or a gap pair. -/
theorem findInterval_some_spec (mn mx : Int) (s : IntervalSet) (hs : Canonical mn mx s)
    (hne : s.intervals ≠ []) (b : Int) (p : Int × Int)
    (h : findInterval s b = some p) :
    (∃ k, p = (k, k) ∧ 0 ≤ k ∧ k < (s.intervals.length : Int) ∧
      Iv.Mem b (idxIv s.intervals k)) ∨
    (∃ k, p = (k, k + 1) ∧ 0 ≤ k ∧ k + 1 < (s.intervals.length : Int) ∧
      (idxIv s.intervals k).ub < b ∧ b < (idxIv s.intervals (k + 1)).lb) := by
  have hlen : 0 < (s.intervals.length : Int) := by
    have := List.length_pos.mpr hne
    omega
  have hsp := span_components hne
  unfold findInterval at h
  split at h
  · rename_i hcont
    have hp : p = findBetween s.intervals b 0 ((s.intervals.length : Int) - 1) :=
      (Option.some_injective _ h).symm
    simp only [Iv.containsB, decide_eq_true_eq] at hcont
    have hfb := findBetween_spec s.intervals b 0 ((s.intervals.length : Int) - 1) hlen
      (le_refl _) (le_refl _) (by omega)
      (Or.inl ⟨rfl, by rw [← hsp.1]; exact hcont.1⟩)
      (Or.inl ⟨rfl, by rw [← hsp.2]; exact hcont.2⟩)
    rcases hfb with ⟨k, hk⟩ | ⟨k, hk⟩
    · exact Or.inl ⟨k, by rw [hp, hk.1], by omega, by omega, hk.2.2.2⟩
    · exact Or.inr ⟨k, by rw [hp, hk.1], by omega, by omega, hk.2.2.2.2.2⟩
  · exact absurd h (by simp)

theorem shrinkLeft_spec (mn mx : Int) (s : IntervalSet) (hs : Canonical mn mx s) (b : Int) :
    Canonical mn mx (shrinkLeft s b) ∧
    (∀ v, MemSet v (shrinkLeft s b) ↔ MemSet v s ∧ b ≤ v) := by
  rcases hfi : findInterval s b with _ | ⟨x, y⟩
  · rw [shrinkLeft_none hfi]
    by_cases hemp : s.intervals.isEmpty
    · rw [if_pos hemp]
      have hnil : s.intervals = [] := by simpa using hemp
      refine ⟨canonical_emptySet, fun v => ?_⟩
      simp [MemSet, emptySet, memList_nil, hnil]
    · rw [if_neg hemp]
      have hne : s.intervals ≠ [] := by simpa using hemp
      have hout := (findInterval_locator mn mx s hs hne b).1.mp hfi
      have hsp := span_components hne
      have hlen : 0 < (s.intervals.length : Int) := by
        have := List.length_pos.mpr hne
        omega
      by_cases hub : (span s).ub < b
      · rw [if_pos hub]
        refine ⟨canonical_emptySet, fun v => ?_⟩
        simp only [MemSet, emptySet, memList_nil, false_iff]
        rintro ⟨hv, hbv⟩
        rw [show MemList v s.intervals ↔ _ from memList_iff_idx] at hv
        obtain ⟨m, h0, hm', hm⟩ := hv
        have h1 := idx_ub_mono hs.1 h0 (by omega : m ≤ (s.intervals.length : Int) - 1)
          (by omega)
        have h2 := hm.2
        rw [← hsp.2] at h1
        omega
      · rw [if_neg hub]
        have hlb : b < (span s).lb := by
          rcases hout with h | h
          · exact h
          · omega
        refine ⟨hs, fun v => ?_⟩
        constructor
        · intro hv
          refine ⟨hv, ?_⟩
          rw [show MemSet v s ↔ _ from memList_iff_idx] at hv
          obtain ⟨m, h0, hm', hm⟩ := hv
          have h1 := idx_lb_mono hs.1 (le_refl (0 : Int)) h0 hm'
          have h2 := hm.1
          rw [← hsp.1] at h1
          omega
        · rintro ⟨hv, _⟩
          exact hv
  · rw [shrinkLeft_some hfi]
    have hne : s.intervals ≠ [] := by
      intro hnil
      rw [findInterval_empty hnil] at hfi
      cases hfi
    have hlen : 0 < (s.intervals.length : Int) := by
      have := List.length_pos.mpr hne
      omega
    rcases findInterval_some_spec mn mx s hs hne b (x, y) hfi with
      ⟨k, hk, h0, hklen, hmem⟩ | ⟨k, hk, h0, hklen, hkub, hklb⟩
    · -- b lies inside interval k, and x = k
      have hx : x = k := (Prod.mk.injEq _ _ _ _ ▸ hk).1
      subst hx
      have hgoodk := idx_good hs.1 h0 hklen
      have hnk : (idxIv s.intervals x).lb ≤ (idxIv s.intervals x).ub := hgoodk.1
      rw [if_pos hmem.2, pushAll_eq]
      have hlist : (emptySet.push ⟨b, (idxIv s.intervals x).ub⟩).intervals ++
          s.intervals.drop (x.toNat + 1) =
          ⟨b, (idxIv s.intervals x).ub⟩ :: s.intervals.drop (x.toNat + 1) := by
        simp [emptySet, push]
      rw [hlist]
      have hds := List.drop_subset (x.toNat + 1) s.intervals
      constructor
      · refine ⟨⟨?_, ?_⟩, ?_⟩
        · intro i hi
          rcases List.mem_cons.mp hi with rfl | hi'
          · exact ⟨show b ≤ (idxIv s.intervals x).ub from hmem.2,
              show mn ≤ b from by have h1 := hgoodk.2.1; have h2 := hmem.1; omega,
              hgoodk.2.2⟩
          · exact hs.1.1 i (hds hi')
        · rw [List.chain'_cons']
          refine ⟨?_, chain'_drop_of_chain' hs.1.2 _⟩
          intro g hg
          have hlt : x.toNat + 1 < s.intervals.length := by
            by_contra hge
            rw [List.drop_eq_nil_of_le (by omega)] at hg
            cases hg
          rw [head?_drop_eq hlt] at hg
          have hg' := Option.some_injective _ hg
          subst hg'
          have hsep := sep_idx hs.1 h0 (by omega : x + 1 < (s.intervals.length : Int))
          rw [show ((x.toNat + 1 : Nat) : Int) = x + 1 from by omega]
          exact ⟨hsep.1, by have := hsep.2; exact this⟩
        · show (emptySet.push _).size + _ = _
          simp [emptySet, push, sumSizes_cons]
      · intro v
        rw [show MemSet v ⟨_ :: s.intervals.drop (x.toNat + 1), _⟩ ↔
          Iv.Mem v ⟨b, (idxIv s.intervals x).ub⟩ ∨
            MemList v (s.intervals.drop (x.toNat + 1)) from memList_cons]
        rw [memList_drop_iff]
        rw [show MemSet v s ↔ _ from memList_iff_idx]
        constructor
        · rintro (hm | ⟨m, hm1, hm2, hm3⟩)
          · have hb1 : b ≤ v := hm.1
            have hb2 : v ≤ (idxIv s.intervals x).ub := hm.2
            refine ⟨⟨x, h0, hklen, ⟨by have := hmem.1; omega, by omega⟩⟩, by omega⟩
          · have hx1m : x + 1 ≤ m := by omega
            have hsep := sep_idx hs.1 h0 (by omega : x + 1 < (s.intervals.length : Int))
            have hlbm := idx_lb_mono hs.1 (by omega : (0:Int) ≤ x + 1) hx1m hm2
            have := hm3.1
            have := hmem.2
            have := hsep.2
            refine ⟨⟨m, by omega, hm2, hm3⟩, by omega⟩
        · rintro ⟨⟨m, hm1, hm2, hm3⟩, hbv⟩
          rcases lt_trichotomy m x with hmx | rfl | hmx
          · exfalso
            have hgap := idx_gap hs.1 hm1 hmx hklen
            have := hm3.2
            have := hmem.1
            omega
          · left
            exact ⟨hbv, hm3.2⟩
          · right
            exact ⟨m, by omega, hm2, hm3⟩
    · -- b lies in the gap after interval k, and x = k
      have hx : x = k := (Prod.mk.injEq _ _ _ _ ▸ hk).1
      subst hx
      rw [if_neg (by omega), pushAll_eq]
      have hlist : (emptySet : IntervalSet).intervals ++ s.intervals.drop (x.toNat + 1) =
          s.intervals.drop (x.toNat + 1) := by
        simp [emptySet]
      rw [hlist]
      have hds := List.drop_subset (x.toNat + 1) s.intervals
      constructor
      · refine ⟨⟨fun i hi => hs.1.1 i (hds hi), chain'_drop_of_chain' hs.1.2 _⟩, ?_⟩
        show (emptySet : IntervalSet).size + _ = _
        simp [emptySet]
      · intro v
        rw [show MemSet v ⟨s.intervals.drop (x.toNat + 1), _⟩ ↔
          MemList v (s.intervals.drop (x.toNat + 1)) from Iff.rfl]
        rw [memList_drop_iff]
        rw [show MemSet v s ↔ _ from memList_iff_idx]
        constructor
        · rintro ⟨m, hm1, hm2, hm3⟩
          have hlbm := idx_lb_mono hs.1 (by omega : (0:Int) ≤ x + 1) (by omega) hm2
          have := hm3.1
          refine ⟨⟨m, by omega, hm2, hm3⟩, by omega⟩
        · rintro ⟨⟨m, hm1, hm2, hm3⟩, hbv⟩
          rcases lt_trichotomy m x with hmx | rfl | hmx
          · exfalso
            have hubm := idx_ub_mono hs.1 hm1 (by omega : m ≤ x) (by omega)
            have := hm3.2
            omega
          · exfalso
            have := hm3.2
            omega
          · exact ⟨m, by omega, hm2, hm3⟩

theorem shrinkRight_spec (mn mx : Int) (s : IntervalSet) (hs : Canonical mn mx s) (b : Int) :
    Canonical mn mx (shrinkRight s b) ∧
    (∀ v, MemSet v (shrinkRight s b) ↔ MemSet v s ∧ v ≤ b) := by
  rcases hfi : findInterval s b with _ | ⟨x, y⟩
  · rw [shrinkRight_none hfi]
    by_cases hemp : s.intervals.isEmpty
    · rw [if_pos hemp]
      have hnil : s.intervals = [] := by simpa using hemp
      refine ⟨canonical_emptySet, fun v => ?_⟩
      simp [MemSet, emptySet, memList_nil, hnil]
    · rw [if_neg hemp]
      have hne : s.intervals ≠ [] := by simpa using hemp
      have hout := (findInterval_locator mn mx s hs hne b).1.mp hfi
      have hsp := span_components hne
      have hlen : 0 < (s.intervals.length : Int) := by
        have := List.length_pos.mpr hne
        omega
      by_cases hlb : b < (span s).lb
      · rw [if_pos hlb]
        refine ⟨canonical_emptySet, fun v => ?_⟩
        simp only [MemSet, emptySet, memList_nil, false_iff]
        rintro ⟨hv, hvb⟩
        rw [show MemList v s.intervals ↔ _ from memList_iff_idx] at hv
        obtain ⟨m, h0, hm', hm⟩ := hv
        have h1 := idx_lb_mono hs.1 (le_refl (0 : Int)) h0 hm'
        have h2 := hm.1
        rw [← hsp.1] at h1
        omega
      · rw [if_neg hlb]
        have hub : (span s).ub < b := by
          rcases hout with h | h
          · omega
          · exact h
        refine ⟨hs, fun v => ?_⟩
        constructor
        · intro hv
          refine ⟨hv, ?_⟩
          rw [show MemSet v s ↔ _ from memList_iff_idx] at hv
          obtain ⟨m, h0, hm', hm⟩ := hv
          have h1 := idx_ub_mono hs.1 h0
            (by omega : m ≤ (s.intervals.length : Int) - 1) (by omega)
          have h2 := hm.2
          rw [← hsp.2] at h1
          omega
        · rintro ⟨hv, _⟩
          exact hv
  · rw [shrinkRight_some hfi]
    have hne : s.intervals ≠ [] := by
      intro hnil
      rw [findInterval_empty hnil] at hfi
      cases hfi
    have hlen : 0 < (s.intervals.length : Int) := by
      have := List.length_pos.mpr hne
      omega
    rcases findInterval_some_spec mn mx s hs hne b (x, y) hfi with
      ⟨k, hk, h0, hklen, hmem⟩ | ⟨k, hk, h0, hklen, hkub, hklb⟩
    · -- b lies inside interval k, and y = k
      have hy : y = k := (Prod.mk.injEq _ _ _ _ ▸ hk).2
      subst hy
      have hgoodk := idx_good hs.1 h0 hklen
      have hnk : (idxIv s.intervals y).lb ≤ (idxIv s.intervals y).ub := hgoodk.1
      rw [if_pos hmem.1, pushAll_eq]
      have hts := List.take_subset y.toNat s.intervals
      have htl := List.length_take y.toNat s.intervals
      constructor
      · refine ⟨⟨?_, ?_⟩, ?_⟩
        · intro i hi
          simp only [push, emptySet, List.nil_append] at hi
          rcases List.mem_append.mp hi with hi' | hi'
          · exact hs.1.1 i (hts hi')
          · simp at hi'
            subst hi'
            exact ⟨show (idxIv s.intervals y).lb ≤ b from hmem.1,
              hgoodk.2.1,
              show b ≤ mx from by have h1 := hmem.2; have h2 := hgoodk.2.2; omega⟩
        · show (((emptySet : IntervalSet).intervals ++ s.intervals.take y.toNat) ++
            [(⟨(idxIv s.intervals y).lb, b⟩ : Iv)]).Chain' (Sep mx)
          refine List.chain'_append.mpr ⟨?_, List.chain'_singleton _, ?_⟩
          · show ((emptySet : IntervalSet).intervals ++ _).Chain' (Sep mx)
            simp only [emptySet, List.nil_append]
            exact chain'_take_of_chain' hs.1.2 _
          · intro p hp g hg
            simp at hg
            subst hg
            simp only [emptySet, List.nil_append] at hp
            have hy1 : 0 < y.toNat := by
              by_contra hy0
              rw [show y.toNat = 0 from by omega] at hp
              simp at hp
            rw [getLast?_take_eq hy1 (by omega)] at hp
            have hp' := Option.some_injective _ hp
            subst hp'
            have hsep := sep_idx hs.1 (by omega : (0:Int) ≤ y - 1)
              (by omega : y - 1 + 1 < (s.intervals.length : Int))
            rw [show ((y.toNat : Int) - 1) = y - 1 from by omega]
            rw [show y - 1 + 1 = y from by omega] at hsep
            exact ⟨hsep.1, hsep.2⟩
        · show (emptySet : IntervalSet).size + _ + _ = _
          simp [emptySet, push, sumSizes_append, sumSizes_cons, sumSizes_nil, sumSizes]
      · intro v
        rw [show MemSet v ((⟨(emptySet : IntervalSet).intervals ++ s.intervals.take y.toNat,
            _⟩ : IntervalSet).push _) ↔
          MemList v (((emptySet : IntervalSet).intervals ++ s.intervals.take y.toNat) ++
            [⟨(idxIv s.intervals y).lb, b⟩]) from Iff.rfl]
        rw [memList_append, memList_append, memList_singleton]
        rw [show MemList v (emptySet : IntervalSet).intervals ↔ False from by
          simp [emptySet, memList_nil]]
        rw [memList_take_iff]
        rw [show MemSet v s ↔ _ from memList_iff_idx]
        constructor
        · rintro ((hf | ⟨m, hm1, hm2, hm3, hm4⟩) | hm)
          · exact absurd hf id
          · have hgap := idx_gap hs.1 hm1 (by omega : m < y) hklen
            have hv1 := hm4.2
            have := hmem.1
            refine ⟨⟨m, hm1, hm3, hm4⟩, by omega⟩
          · have hv1 : (idxIv s.intervals y).lb ≤ v := hm.1
            have hv2 : v ≤ b := hm.2
            have := hmem.2
            refine ⟨⟨y, h0, hklen, ⟨hv1, by omega⟩⟩, hv2⟩
        · rintro ⟨⟨m, hm1, hm2, hm3⟩, hvb⟩
          rcases lt_trichotomy m y with hmy | rfl | hmy
          · exact Or.inl (Or.inr ⟨m, hm1, by omega, hm2, hm3⟩)
          · right
            exact ⟨hm3.1, hvb⟩
          · exfalso
            have hlbm := idx_lb_mono hs.1 (by omega : (0:Int) ≤ y + 1) (by omega) hm2
            have hsep := sep_idx hs.1 h0 (by omega : y + 1 < (s.intervals.length : Int))
            have := hm3.1
            have := hmem.2
            have := hsep.2
            omega
    · -- b lies in the gap between k and k+1, and y = k + 1
      have hy : y = k + 1 := (Prod.mk.injEq _ _ _ _ ▸ hk).2
      subst hy
      rw [if_neg (by omega), pushAll_eq]
      have hts := List.take_subset (k + 1).toNat s.intervals
      have htl := List.length_take (k + 1).toNat s.intervals
      have hlist : (emptySet : IntervalSet).intervals ++ s.intervals.take (k + 1).toNat =
          s.intervals.take (k + 1).toNat := by
        simp [emptySet]
      rw [hlist]
      constructor
      · refine ⟨⟨fun i hi => hs.1.1 i (hts hi), chain'_take_of_chain' hs.1.2 _⟩, ?_⟩
        show (emptySet : IntervalSet).size + _ = _
        simp [emptySet]
      · intro v
        rw [show MemSet v ⟨s.intervals.take (k + 1).toNat, _⟩ ↔
          MemList v (s.intervals.take (k + 1).toNat) from Iff.rfl]
        rw [memList_take_iff]
        rw [show MemSet v s ↔ _ from memList_iff_idx]
        constructor
        · rintro ⟨m, hm1, hm2, hm3, hm4⟩
          have hubm := idx_ub_mono hs.1 hm1 (by omega : m ≤ k) (by omega)
          have := hm4.2
          refine ⟨⟨m, hm1, hm3, hm4⟩, by omega⟩
        · rintro ⟨⟨m, hm1, hm2, hm3⟩, hvb⟩
          rcases le_or_lt m k with hmk | hmk
          · exact ⟨m, hm1, by omega, hm2, hm3⟩
          · exfalso
            have hlbm := idx_lb_mono hs.1 (by omega : (0:Int) ≤ k + 1) (by omega) hm2
            have := hm3.1
            omega

/-! ## Claim C10: shrink semantics -/

/-- C10: `shrink_left(lb)` returns exactly the canonical set of values of `S`
that are `≥ lb`, and `shrink_right(ub)` returns exactly the canonical set of
values of `S` that are `≤ ub`. -/
theorem shrink_semantics (mn mx : Int) (s : IntervalSet) (hs : Canonical mn mx s) (b : Int) :
    (Canonical mn mx (shrinkLeft s b) ∧
      (∀ v, MemSet v (shrinkLeft s b) ↔ MemSet v s ∧ b ≤ v)) ∧
    (Canonical mn mx (shrinkRight s b) ∧
      (∀ v, MemSet v (shrinkRight s b) ↔ MemSet v s ∧ v ≤ b)) :=
  ⟨shrinkLeft_spec mn mx s hs b, shrinkRight_spec mn mx s hs b⟩

/-- Witness for C10 at a concrete canonical set and bound. -/
theorem shrink_semantics_witness :
    (Canonical mn32 mx32 (shrinkLeft (toIntervalSet mx32 [(4, 5), (8, 8)]) 5) ∧
      (∀ v, MemSet v (shrinkLeft (toIntervalSet mx32 [(4, 5), (8, 8)]) 5) ↔
        MemSet v (toIntervalSet mx32 [(4, 5), (8, 8)]) ∧ 5 ≤ v)) ∧
    (Canonical mn32 mx32 (shrinkRight (toIntervalSet mx32 [(4, 5), (8, 8)]) 5) ∧
      (∀ v, MemSet v (shrinkRight (toIntervalSet mx32 [(4, 5), (8, 8)]) 5) ↔
        MemSet v (toIntervalSet mx32 [(4, 5), (8, 8)]) ∧ v ≤ 5)) :=
  shrink_semantics mn32 mx32 _ (by decide) 5

/-! ## Serialization -/

instance : IsTotal Iv (fun a b => a.lb ≤ b.lb) := ⟨fun a b => Int.le_total a.lb b.lb⟩

instance : IsTrans Iv (fun a b => a.lb ≤ b.lb) := ⟨fun _ _ _ h1 h2 => le_trans h1 h2⟩

theorem union_emptySet_left {mn mx : Int} {u : IntervalSet} (hu : Canonical mn mx u) :
    union mx emptySet u = u := by
  show unionLoop mx [] u.intervals emptySet = u
  rw [unionLoop_nil_left]
  exact rebuild_canonical hu

theorem memList_perm {l₁ l₂ : List Iv} (h : l₁.Perm l₂) (v : Int) :
    MemList v l₁ ↔ MemList v l₂ := by
  simp only [MemList]
  constructor
  · rintro ⟨i, hi, hm⟩
    exact ⟨i, h.mem_iff.mp hi, hm⟩
  · rintro ⟨i, hi, hm⟩
    exact ⟨i, h.mem_iff.mpr hi, hm⟩

/-- Feeding any list of valid decoded intervals through `extend` on the empty
set yields the correct canonical set. -/
theorem extendSet_empty_spec (mn mx : Int) (l : List Iv)
    (hg : ∀ i ∈ l, i.Nonempty ∧ mn ≤ i.lb ∧ i.ub ≤ mx) :
    Canonical mn mx (extendSet mx emptySet l) ∧
    (∀ v, MemSet v (extendSet mx emptySet l) ↔ MemList v l) := by
  have hperm : (sortIntervals l).Perm l := List.perm_insertionSort _ l
  have hsorted : (sortIntervals l).Pairwise (fun a b : Iv => a.lb ≤ b.lb) :=
    List.sorted_insertionSort (fun a b : Iv => a.lb ≤ b.lb) l
  have hg' : ∀ i ∈ sortIntervals l, i.Nonempty ∧ mn ≤ i.lb ∧ i.ub ≤ mx := by
    intro i hi
    exact hg i (hperm.mem_iff.mp hi)
  have hu := extendAtBack_spec (sortIntervals l) emptySet canonical_emptySet hg'
    hsorted (by intro bl hbl; simp [emptySet] at hbl)
  have hul := union_emptySet_left hu.1
  rw [show extendSet mx emptySet l =
    union mx emptySet (extendAtBack mx emptySet (sortIntervals l)) from rfl, hul]
  refine ⟨hu.1, fun v => ?_⟩
  rw [hu.2 v]
  rw [show MemSet v emptySet ↔ False from by simp [MemSet, emptySet, memList_nil]]
  rw [memList_perm hperm v]
  tauto

/-! ## Claim C8: serialization round trip -/

/-- C8: serialization of a canonical set is the ordered pair sequence (with an
explicit none marker for the empty set), deserialization inverts it exactly,
and deserializing any valid (possibly touching or unordered) pair sequence
yields the correct canonical set. -/
theorem serde_roundtrip :
    (∀ (mn mx : Int) (s : IntervalSet), Canonical mn mx s →
      deserialize mx (serialize s) = s) ∧
    (serialize emptySet = none ∧
      ∀ s : IntervalSet, s.intervals ≠ [] →
        serialize s = some (s.intervals.map fun i => (i.lb, i.ub))) ∧
    (∀ (mn mx : Int) (ps : List (Int × Int)),
      (∀ p ∈ ps, p.1 ≤ p.2 ∧ mn ≤ p.1 ∧ p.2 ≤ mx) →
      Canonical mn mx (deserialize mx (some ps)) ∧
      (∀ v, MemSet v (deserialize mx (some ps)) ↔ ∃ p ∈ ps, p.1 ≤ v ∧ v ≤ p.2)) := by
  refine ⟨?_, ⟨rfl, ?_⟩, ?_⟩
  · intro mn mx s hs
    rcases hc : s.intervals with _ | ⟨first, rest⟩
    · have hsz : s.size = 0 := by
        have h0 := hs.2
        rw [hc] at h0
        simpa [sumSizes] using h0
      have hseq : s = emptySet := by
        cases s
        simp only at hc hsz
        subst hc
        subst hsz
        rfl
      subst hseq
      rfl
    · have hne : s.intervals ≠ [] := by rw [hc]; simp
      rw [show serialize s = some (s.intervals.map fun i => (i.lb, i.ub)) from by
        unfold serialize
        rw [if_neg (by simpa using hne)]]
      show extendSet mx emptySet
        (((s.intervals.map fun i => (i.lb, i.ub)).map fun p => Iv.new p.1 p.2)) = s
      rw [List.map_map]
      rw [show ((fun p : Int × Int => Iv.new p.1 p.2) ∘ fun i : Iv => (i.lb, i.ub)) =
        id from funext fun i => rfl]
      rw [List.map_id]
      show union mx emptySet (extendAtBack mx emptySet (sortIntervals s.intervals)) = s
      rw [show sortIntervals s.intervals = s.intervals from
        List.Sorted.insertionSort_eq (goodList_sorted hs.1)]
      rw [rebuild_canonical hs]
      exact union_emptySet_left hs
  · intro s hne
    unfold serialize
    rw [if_neg (by simpa using hne)]
  · intro mn mx ps hps
    have hval : ∀ i ∈ ps.map fun p => Iv.new p.1 p.2,
        i.Nonempty ∧ mn ≤ i.lb ∧ i.ub ≤ mx := by
      intro i hi
      rw [List.mem_map] at hi
      obtain ⟨p, hp, rfl⟩ := hi
      exact hps p hp
    have h := extendSet_empty_spec mn mx (ps.map fun p => Iv.new p.1 p.2) hval
    refine ⟨h.1, fun v => ?_⟩
    rw [show deserialize mx (some ps) =
      extendSet mx emptySet (ps.map fun p => Iv.new p.1 p.2) from rfl]
    rw [h.2 v]
    simp only [MemList, List.mem_map]
    constructor
    · rintro ⟨i, ⟨p, hp, rfl⟩, hm⟩
      exact ⟨p, hp, hm.1, hm.2⟩
    · rintro ⟨p, hp, h1, h2⟩
      exact ⟨Iv.new p.1 p.2, ⟨p, hp, rfl⟩, h1, h2⟩

/-- Witness for C8: a concrete round trip and a concrete re-canonicalizing
decode of an unordered input sequence. -/
theorem serde_roundtrip_witness :
    deserialize mx32 (serialize (toIntervalSet mx32 [(2, 3), (6, 7)])) =
      toIntervalSet mx32 [(2, 3), (6, 7)] ∧
    Canonical mn32 mx32 (deserialize mx32 (some [(6, 7), (2, 3)])) :=
  ⟨serde_roundtrip.1 mn32 mx32 _ (by decide),
   (serde_roundtrip.2.2 mn32 mx32 [(6, 7), (2, 3)] (by decide)).1⟩

/-! ## Cardinality as a finite set of points -/

/-- The finite set of points of a single interval. -/
def ivFinset (i : Iv) : Finset Int := Finset.Icc i.lb i.ub

/-- The finite set of points of an interval list. -/
def listFinset : List Iv → Finset Int
  | [] => ∅
  | i :: l => ivFinset i ∪ listFinset l

theorem mem_listFinset {v : Int} : ∀ {l : List Iv}, v ∈ listFinset l ↔ MemList v l := by
  intro l
  induction l with
  | nil => simp [listFinset, memList_nil]
  | cons i l ih =>
    show v ∈ ivFinset i ∪ listFinset l ↔ _
    rw [Finset.mem_union, ih, memList_cons, ivFinset, Finset.mem_Icc]
    exact Iff.rfl

theorem card_listFinset {mn mx : Int} : ∀ {l : List Iv}, GoodList mn mx l →
    (listFinset l).card = sumSizes l := by
  intro l
  induction l with
  | nil => intro _; simp [listFinset, sumSizes]
  | cons i l ih =>
    intro hg
    show (ivFinset i ∪ listFinset l).card = _
    have hdisj : Disjoint (ivFinset i) (listFinset l) := by
      rw [Finset.disjoint_left]
      intro a ha hal
      rw [ivFinset, Finset.mem_Icc] at ha
      rw [mem_listFinset] at hal
      obtain ⟨k, hk, hmk⟩ := hal
      have := gap_head hg k hk
      have := hmk.1
      omega
    rw [Finset.card_union_of_disjoint hdisj, ih (goodList_cons hg), sumSizes_cons]
    congr 1
    rw [ivFinset, Int.card_Icc]
    rfl

theorem size_le_of_pointwise {mn mx : Int} {s t : IntervalSet}
    (hs : Canonical mn mx s) (ht : Canonical mn mx t)
    (h : ∀ v, MemSet v s → MemSet v t) : s.size ≤ t.size := by
  rw [hs.2, ht.2, ← card_listFinset hs.1, ← card_listFinset ht.1]
  apply Finset.card_le_card
  intro v hv
  rw [mem_listFinset] at hv ⊢
  exact h v hv

/-! ## Subset -/

theorem idxIv_mem_toNat {l : List Iv} {k : Int} (h : k.toNat < l.length) :
    idxIv l k ∈ l := by
  unfold idxIv
  rw [List.getD_eq_getElem l Iv.emptyIv h]
  exact List.getElem_mem _

theorem idxIv_default {l : List Iv} {k : Int} (h : l.length ≤ k.toNat) :
    idxIv l k = Iv.emptyIv := by
  unfold idxIv
  exact List.getD_eq_default l Iv.emptyIv h

theorem subsetWalk_step {t : IntervalSet} {iv : Iv} {rest : List Iv} {left : Int} :
    subsetWalk t (iv :: rest) left =
      (if (findBetween t.intervals iv.lb left ((t.intervals.length : Int) - 1)).1 =
          (findBetween t.intervals iv.lb left ((t.intervals.length : Int) - 1)).2 ∧
          iv.isSubsetB (idxIv t.intervals
            (findBetween t.intervals iv.lb left ((t.intervals.length : Int) - 1)).1) = true
       then subsetWalk t rest
         (findBetween t.intervals iv.lb left ((t.intervals.length : Int) - 1)).1
       else false) := by
  show (if ((findBetween t.intervals iv.lb left ((t.intervals.length : Int) - 1)).1 =
      (findBetween t.intervals iv.lb left ((t.intervals.length : Int) - 1)).2 &&
      iv.isSubsetB (idxIv t.intervals
        (findBetween t.intervals iv.lb left ((t.intervals.length : Int) - 1)).1)) = true
    then _ else false) = _
  by_cases hc : ((findBetween t.intervals iv.lb left ((t.intervals.length : Int) - 1)).1 =
      (findBetween t.intervals iv.lb left ((t.intervals.length : Int) - 1)).2 &&
      iv.isSubsetB (idxIv t.intervals
        (findBetween t.intervals iv.lb left ((t.intervals.length : Int) - 1)).1)) = true
  · rw [if_pos hc, if_pos (by simpa [Bool.and_eq_true, decide_eq_true_eq] using hc)]
  · rw [if_neg hc, if_neg (by simpa [Bool.and_eq_true, decide_eq_true_eq] using hc)]

theorem subsetWalk_sound (t : IntervalSet) : ∀ (l : List Iv) (left : Int),
    subsetWalk t l left = true → ∀ i ∈ l, i.Nonempty →
      ∃ j ∈ t.intervals, j.lb ≤ i.lb ∧ i.ub ≤ j.ub := by
  intro l
  induction l with
  | nil => intro _ _ i hi; cases hi
  | cons iv rest ih =>
    intro left hw i hi hne
    rw [subsetWalk_step] at hw
    split at hw
    · rename_i hcond
      have hsub := hcond.2
      rcases List.mem_cons.mp hi with rfl | hi'
      · -- the checked interval itself
        simp only [Iv.isSubsetB] at hsub
        have hive : i.isEmpty = false := by
          simp only [Iv.isEmpty, decide_eq_false_iff_not]
          simp only [Iv.Nonempty] at hne
          omega
        rw [if_neg (by simp [hive])] at hsub
        by_cases hrange : (findBetween t.intervals i.lb left
            ((t.intervals.length : Int) - 1)).1.toNat < t.intervals.length
        · split at hsub
          · exact absurd hsub (by simp)
          · simp only [decide_eq_true_eq] at hsub
            exact ⟨_, idxIv_mem_toNat hrange, hsub⟩
        · rw [idxIv_default (by omega)] at hsub
          rw [if_pos (by simp [Iv.isEmpty, Iv.emptyIv])] at hsub
          exact absurd hsub (by simp)
      · exact ih _ hw i hi' hne
    · exact absurd hw (by simp)

theorem subsetWalk_complete {mn mx : Int} (t : IntervalSet) (ht : Canonical mn mx t)
    (htne : t.intervals ≠ []) : ∀ (l : List Iv) (left : Int),
    GoodList mn mx l →
    (∀ i ∈ l, ∀ v, Iv.Mem v i → MemList v t.intervals) →
    0 ≤ left → left < (t.intervals.length : Int) →
    (0 < left → ∀ hd, l.head? = some hd → (idxIv t.intervals (left - 1)).ub < hd.lb) →
    subsetWalk t l left = true := by
  have hlen : 0 < (t.intervals.length : Int) := by
    have := List.length_pos.mpr htne
    omega
  intro l
  induction l with
  | nil => intro left _ _ _ _ _; rfl
  | cons iv rest ih =>
    intro left hg hall h0 hltlen hinv
    have hivne : iv.Nonempty := (hg.1 iv (by simp)).1
    have hivlb : MemList iv.lb t.intervals :=
      hall iv (by simp) iv.lb ⟨le_refl _, hivne⟩
    obtain ⟨kc, hkc0, hkclen, hkcm⟩ := memList_iff_idx.mp hivlb
    -- the binary search finds the unique containing interval
    have hD : (left = 0 ∧ (idxIv t.intervals 0).lb ≤ iv.lb) ∨
        (0 < left ∧ (idxIv t.intervals (left - 1)).ub < iv.lb) := by
      rcases eq_or_lt_of_le h0 with h0' | h0'
      · left
        refine ⟨h0'.symm, ?_⟩
        have := idx_lb_mono ht.1 (le_refl (0 : Int)) hkc0 hkclen
        have := hkcm.1
        omega
      · exact Or.inr ⟨h0', hinv h0' iv rfl⟩
    have hE := idx_ub_mono ht.1 hkc0
      (by omega : kc ≤ (t.intervals.length : Int) - 1) (by omega)
    have hfb := findBetween_spec t.intervals iv.lb left ((t.intervals.length : Int) - 1)
      hlen h0 (le_refl _) (by omega) hD
      (Or.inl ⟨rfl, by have := hkcm.2; omega⟩)
    rcases hfb with ⟨y, hy, hly, hyr, hym⟩ | ⟨y, hy, hy0, hy1, _, _, hyu, hyl⟩
    · -- found (y, y); it contains iv.lb, and iv is fully inside it
      have hyeq : ∀ m : Int, 0 ≤ m → m < (t.intervals.length : Int) →
          Iv.Mem iv.lb (idxIv t.intervals m) → m = y := by
        intro m hm0 hmlen hmm
        by_contra hne'
        rcases lt_or_gt_of_ne hne' with hlt | hgt
        · have := idx_gap ht.1 hm0 hlt (by omega)
          have := hmm.2
          have := hym.1
          omega
        · have := idx_gap ht.1 (by omega) hgt hmlen
          have := hmm.1
          have := hym.2
          omega
      -- iv.ub stays within interval y of t
      have hub : iv.ub ≤ (idxIv t.intervals y).ub := by
        by_contra hgt
        push_neg at hgt
        have hw : Iv.Mem ((idxIv t.intervals y).ub + 1) iv := by
          refine ⟨?_, by omega⟩
          have := hym.2
          omega
        have hwt := hall iv (by simp) _ hw
        obtain ⟨m, hm0, hmlen, hmm⟩ := memList_iff_idx.mp hwt
        rcases le_or_lt m y with hmy | hmy
        · have := idx_ub_mono ht.1 hm0 hmy (by omega)
          have := hmm.2
          omega
        · have := idx_gap ht.1 (by omega : 0 ≤ y) hmy hmlen
          have := hmm.1
          omega
      rw [subsetWalk_step, hy]
      have hyne : (idxIv t.intervals y).Nonempty := (idx_good ht.1 (by omega) (by omega)).1
      rw [if_pos ?hcond]
      case hcond =>
        refine ⟨rfl, ?_⟩
        simp only [Iv.isSubsetB]
        rw [if_neg (by
          simp only [Iv.isEmpty, decide_eq_true_eq, not_lt]
          simp only [Iv.Nonempty] at hivne
          omega)]
        rw [if_neg (by
          simp only [Iv.isEmpty, decide_eq_true_eq, not_lt]
          simp only [Iv.Nonempty] at hyne
          omega)]
        simp only [decide_eq_true_eq]
        exact ⟨hym.1, hub⟩
      -- recurse on the rest with the window advanced to y
      apply ih y (goodList_cons hg) (fun i hi => hall i (by simp [hi]))
        (by omega) (by omega)
      intro hy0' hd hhd
      have hgap := gap_head hg hd (List.mem_of_mem_head? hhd)
      rcases eq_or_lt_of_le (by omega : (0:Int) ≤ y - 1) with hym1 | hym1
      · -- y = 1 is impossible to distinguish; use separation in t
        have hsep := sep_idx ht.1 (by omega : (0:Int) ≤ y - 1) (by omega)
        rw [show y - 1 + 1 = y from by omega] at hsep
        have := hsep.2
        have := hym.1
        simp only [Iv.Nonempty] at hivne
        omega
      · have hsep := sep_idx ht.1 (by omega : (0:Int) ≤ y - 1) (by omega)
        rw [show y - 1 + 1 = y from by omega] at hsep
        have := hsep.2
        have := hym.1
        simp only [Iv.Nonempty] at hivne
        omega
    · -- a gap result is impossible: iv.lb belongs to t
      exfalso
      rcases le_or_lt kc y with hky | hky
      · have := idx_ub_mono ht.1 hkc0 hky (by omega)
        have := hkcm.2
        omega
      · have := idx_lb_mono ht.1 (by omega : (0:Int) ≤ y + 1) (by omega) hkclen
        have := hkcm.1
        omega

theorem isSubset_iff {mn mx : Int} {A B : IntervalSet}
    (hA : Canonical mn mx A) (hB : Canonical mn mx B) :
    isSubset A B = true ↔ ∀ v, MemSet v A → MemSet v B := by
  by_cases he : A.intervals = []
  · unfold isSubset
    rw [if_pos (by simp [he])]
    simp [MemSet, MemList, he]
  · constructor
    · intro hw v hv
      unfold isSubset at hw
      rw [if_neg (by simp [he])] at hw
      split at hw
      · simp at hw
      · obtain ⟨i, hi, hm⟩ := hv
        have hine : i.Nonempty := by
          have h1 := hm.1
          have h2 := hm.2
          simp only [Iv.Nonempty]
          omega
        obtain ⟨j, hj, hjl, hju⟩ := subsetWalk_sound B A.intervals 0 hw i hi hine
        exact ⟨j, hj, le_trans hjl hm.1, le_trans hm.2 hju⟩
    · intro hp
      obtain ⟨a, as, hAeq⟩ := List.exists_cons_of_ne_nil he
      have hane : a.Nonempty := (hA.1.1 a (by rw [hAeq]; simp)).1
      have halb : MemSet a.lb A := ⟨a, by rw [hAeq]; simp, le_refl _, hane⟩
      have hBne : B.intervals ≠ [] := by
        obtain ⟨j, hj, _⟩ := hp a.lb halb
        intro hBe
        rw [hBe] at hj
        cases hj
      have hBlen : 0 < (B.intervals.length : Int) := by
        have := List.length_pos.mpr hBne
        omega
      have hAlen : 0 < (A.intervals.length : Int) := by
        have := List.length_pos.mpr he
        omega
      have hsz : ¬ B.size < A.size := by
        have := size_le_of_pointwise hA hB hp
        omega
      have hAcomp := span_components he
      have hBcomp := span_components hBne
      have hA0 := idx_good hA.1 (le_refl (0 : Int)) hAlen
      have hAl := idx_good hA.1
        (by omega : (0:Int) ≤ (A.intervals.length : Int) - 1) (by omega)
      have hB0 := idx_good hB.1 (le_refl (0 : Int)) hBlen
      have hspanlb : (span B).lb ≤ (span A).lb := by
        have hmem : MemSet (idxIv A.intervals 0).lb A :=
          memList_iff_idx.mpr ⟨0, le_refl _, hAlen, le_refl _, hA0.1⟩
        obtain ⟨k, hk0, hklen, hkm⟩ := memList_iff_idx.mp (hp _ hmem)
        have h1 := idx_lb_mono hB.1 (le_refl (0:Int)) hk0 hklen
        have h2 := hkm.1
        rw [hAcomp.1, hBcomp.1]
        omega
      have hspanub : (span A).ub ≤ (span B).ub := by
        have hmem : MemSet (idxIv A.intervals ((A.intervals.length : Int) - 1)).ub A :=
          memList_iff_idx.mpr
            ⟨(A.intervals.length : Int) - 1, by omega, by omega, hAl.1, le_refl _⟩
        obtain ⟨k, hk0, hklen, hkm⟩ := memList_iff_idx.mp (hp _ hmem)
        have h1 := idx_ub_mono hB.1 hk0
          (by omega : k ≤ (B.intervals.length : Int) - 1) (by omega)
        have h2 := hkm.2
        rw [hAcomp.2, hBcomp.2]
        omega
      have hspan : (span A).isSubsetB (span B) = true := by
        have hAub := idx_ub_mono hA.1 (le_refl (0:Int))
          (by omega : (0:Int) ≤ (A.intervals.length : Int) - 1) (by omega)
        have hBub := idx_ub_mono hB.1 (le_refl (0:Int))
          (by omega : (0:Int) ≤ (B.intervals.length : Int) - 1) (by omega)
        have hAne : ¬ (span A).isEmpty = true := by
          simp only [Iv.isEmpty, decide_eq_true_eq, not_lt]
          rw [hAcomp.1, hAcomp.2]
          have h1 : (idxIv A.intervals 0).lb ≤ (idxIv A.intervals 0).ub := hA0.1
          omega
        have hBne' : ¬ (span B).isEmpty = true := by
          simp only [Iv.isEmpty, decide_eq_true_eq, not_lt]
          rw [hBcomp.1, hBcomp.2]
          have h1 : (idxIv B.intervals 0).lb ≤ (idxIv B.intervals 0).ub := hB0.1
          omega
        unfold Iv.isSubsetB
        rw [if_neg hAne, if_neg hBne']
        simp only [decide_eq_true_eq]
        exact ⟨hspanlb, hspanub⟩
      have hwalk : subsetWalk B A.intervals 0 = true := by
        apply subsetWalk_complete B hB hBne A.intervals 0 hA.1
          (fun i hi v hv => hp v ⟨i, hi, hv⟩) (le_refl _) hBlen
        intro h0
        exact absurd h0 (lt_irrefl 0)
      unfold isSubset
      rw [if_neg (by simp [he]), if_neg (by simp [hsz, hspan]), hwalk]

/-- C6: is_subset(A, B) holds on canonical sets exactly when every value in A
also lies in B; the empty set is a subset of every set, is_subset is reflexive
on canonical sets, and the set of the intervals (3, 3) and (7, 8) is a subset
of the one of (3, 8) but not of the one of (3, 3). -/
theorem isSubset_semantics :
    (∀ (mn mx : Int) (A B : IntervalSet), Canonical mn mx A → Canonical mn mx B →
      (isSubset A B = true ↔ ∀ v, MemSet v A → MemSet v B)) ∧
    (∀ B : IntervalSet, isSubset emptySet B = true) ∧
    (∀ (mn mx : Int) (A : IntervalSet), Canonical mn mx A → isSubset A A = true) ∧
    isSubset (toIntervalSet mx32 [(3, 3), (7, 8)]) (toIntervalSet mx32 [(3, 8)]) = true ∧
    isSubset (toIntervalSet mx32 [(3, 3), (7, 8)]) (toIntervalSet mx32 [(3, 3)]) = false := by
  have hA : Canonical mn32 mx32 (toIntervalSet mx32 [(3, 3), (7, 8)]) := by decide
  refine ⟨fun mn mx A B hA hB => isSubset_iff hA hB, fun B => rfl,
    fun mn mx A hA => (isSubset_iff hA hA).mpr (fun v hv => hv), ?_, ?_⟩
  · have hB : Canonical mn32 mx32 (toIntervalSet mx32 [(3, 8)]) := by decide
    apply (isSubset_iff hA hB).mpr
    intro v hv
    have e1 : toIntervalSet mx32 [(3, 3), (7, 8)] = ⟨[⟨3, 3⟩, ⟨7, 8⟩], 3⟩ := by decide
    have e2 : toIntervalSet mx32 [(3, 8)] = ⟨[⟨3, 8⟩], 6⟩ := by decide
    rw [e1] at hv
    rw [e2]
    simp only [MemSet, MemList, Iv.Mem, List.mem_cons, List.not_mem_nil, or_false,
      List.mem_singleton] at hv ⊢
    obtain ⟨i, hi, hm⟩ := hv
    rcases hi with rfl | rfl
    · exact ⟨⟨3, 8⟩, rfl, by simp at hm ⊢; omega⟩
    · exact ⟨⟨3, 8⟩, rfl, by simp at hm ⊢; omega⟩
  · have hC : Canonical mn32 mx32 (toIntervalSet mx32 [(3, 3)]) := by decide
    rw [Bool.eq_false_iff]
    intro htrue
    have h7 := (isSubset_iff hA hC).mp htrue 7 (by decide)
    revert h7
    decide

/-- Witness for C6: the iff and reflexivity parts applied to a concrete
canonical two-interval set. -/
theorem isSubset_semantics_witness :
    isSubset (toIntervalSet mx32 [(1, 2), (5, 6)]) (toIntervalSet mx32 [(1, 2), (5, 6)]) = true :=
  isSubset_semantics.2.2.1 mn32 mx32 _ (by decide)

end Intervallum
